import Mathlib

/-!
Verification development for the `shift` distribution-feeder synthesis library.

The Lean definitions below are shallow embeddings of the Python sources:

* `src/shift/data_model.py`            — `EdgeModel.validate_fields`
* `src/shift/graph/distribution_graph.py` — `DistributionGraph` operations
* `src/shift/mapper/balanced_phase_mapper.py` — `greedy_allocations`,
  `BalancedPhaseMapper` (construction check, node/asset phase mappings)
* `src/shift/mapper/base_phase_mapper.py` — `_validate_asset_phases`
* `src/shift/mapper/transformer_voltage_mapper.py` — `node_voltage_mapping`
* `src/shift/mapper/edge_equipment_mapper.py` — `_get_closest_transformer_equipment`
* `src/shift/utils/split_network_edges.py` — `split_network_edges`
* `src/shift/system_builder.py`        — `_get_wdg_voltages`

Machine integers/floats are modelled by `ℚ` (exact arithmetic); the irrational
factor `√3` appearing in the system builder is modelled over `ℝ`.  Python dicts
are modelled as functions into `Option`; Python `set[Phase]` as `Finset Phase`.
External collaborators (networkx DFS/ancestor queries, geopy geodesic distance,
uuid generation, sklearn clustering) are modelled by executable stand-ins that
implement their documented semantics: DFS with adjacency in edge-insertion
order, geodesic distance as an abstract distance-function parameter, uuid4 as a
fresh-name counter.
-/

namespace Shift

/-- The `gdm` phase enumeration (`Phase`), restricted to the symbols used by
the phase mappers. -/
inductive Phase where
  | A | B | C | N | S1 | S2
deriving DecidableEq, Repr, Fintype

/-- Asset kinds attachable to a node (`VALID_NODE_TYPES` in `data_model.py`:
the four `gdm` component classes). -/
inductive AKind where
  | load | solar | capacitor | vsource
deriving DecidableEq, Repr

/-- The class objects acceptable as `EdgeModel.edge_type`
(`VALID_EDGE_TYPES = Type[DistributionBranchBase] | Type[DistributionTransformer]`,
which pydantic validates up to subclassing).  We model the two base classes and
the concrete `gdm` subclasses of `DistributionBranchBase`. -/
inductive PyClass where
  | distributionTransformer
  | distributionBranchBase
  | matrixImpedanceBranch
  | sequenceImpedanceBranch
  | geometryBranch
deriving DecidableEq, Repr

/-- The spec's abstract `EdgeKind ∈ {Branch, Transformer}`. -/
inductive EdgeKind where
  | branch | transformer
deriving DecidableEq, Repr

/-- Kind of a class value: only `DistributionTransformer` is a transformer
kind; every (sub)class of `DistributionBranchBase` is a branch kind. -/
def edgeKindOf : PyClass → EdgeKind
  | .distributionTransformer => .transformer
  | _ => .branch

/-- Strict subclasses of `DistributionBranchBase` present in the model. -/
def isStrictBranchSubclass : PyClass → Bool
  | .matrixImpedanceBranch => true
  | .sequenceImpedanceBranch => true
  | .geometryBranch => true
  | _ => false

/-- `EdgeModel.validate_fields` (data_model.py:121-130): rejects
`edge_type is DistributionTransformer` with a non-null length, and
`edge_type is DistributionBranchBase` (the exact class, `is` comparison)
with a null length.  Returns `true` when the model is accepted. -/
def validate_fields (edge_type : PyClass) (length : Option ℚ) : Bool :=
  !(edge_type == .distributionTransformer && length.isSome) &&
    !(edge_type == .distributionBranchBase && length.isNone)

/-- `TransformerTypes` enumeration (data_model.py). -/
inductive TransformerTypes where
  | threePhase
  | singlePhase
  | singlePhasePrimaryDelta
  | splitPhase
  | splitPhasePrimaryDelta
deriving DecidableEq, Repr

/-- `NodeModel`: name, location, set of asset kinds. -/
structure NodeModel where
  name : String
  location : ℚ × ℚ
  assets : List AKind
deriving DecidableEq, Repr

/-- `EdgeModel` payload: name, edge type (class object) and optional length. -/
structure EdgeModel where
  name : String
  edge_type : PyClass
  length : Option ℚ
deriving DecidableEq, Repr

/-- One undirected edge of a `DistributionGraph` with endpoints in insertion
order, as stored by networkx. -/
structure GEdge where
  src : String
  dst : String
  data : EdgeModel
deriving DecidableEq, Repr

/-- `DistributionGraph`: node list and edge list in insertion order (networkx
preserves insertion order for iteration) plus the `vsource_node` field. -/
structure DistributionGraph where
  nodes : List NodeModel
  edges : List GEdge
  vsource_node : Option String
deriving DecidableEq, Repr

/-- Graph-operation errors used by `DistributionGraph` (exceptions.py). -/
inductive GraphErr where
  | nodeAlreadyExists
  | nodeDoesNotExist
  | edgeAlreadyExists
  | vsourceNodeAlreadyExists
  | vsourceNodeDoesNotExist
deriving DecidableEq, Repr

namespace DistributionGraph

/-- Names of all nodes of the graph. -/
def nodeNames (g : DistributionGraph) : List String :=
  g.nodes.map NodeModel.name

/-- `DistributionGraph.has_node`. -/
def has_node (g : DistributionGraph) (name : String) : Bool :=
  g.nodeNames.contains name

/-- `DistributionGraph.add_node` (graph/distribution_graph.py:69-103):
duplicate-name check, second-voltage-source check, insertion, and setting of
`vsource_node` when the node carries `DistributionVoltageSource`. -/
def add_node (g : DistributionGraph) (node : NodeModel) :
    Except GraphErr DistributionGraph :=
  if g.has_node node.name then .error .nodeAlreadyExists
  else if g.vsource_node.isSome && node.assets.contains AKind.vsource then
    .error .vsourceNodeAlreadyExists
  else
    .ok { g with
          nodes := g.nodes ++ [node],
          vsource_node :=
            if node.assets.contains AKind.vsource then some node.name
            else g.vsource_node }

/-- `DistributionGraph.remove_node` (graph/distribution_graph.py:224-237):
delegates to `networkx.Graph.remove_node`, which removes the node and its
incident edges and raises if the node is absent.  The Python method does not
touch `vsource_node`. -/
def remove_node (g : DistributionGraph) (node_name : String) :
    Except GraphErr DistributionGraph :=
  if g.has_node node_name then
    .ok { g with
          nodes := g.nodes.filter (fun n => n.name ≠ node_name),
          edges := g.edges.filter
            (fun e => e.src ≠ node_name ∧ e.dst ≠ node_name) }
  else .error .nodeDoesNotExist

/-- Names of the transformer edges of the graph, in edge-insertion order
(the comprehension in `BalancedPhaseMapper.__init__` filtering
`edge.edge_type == DistributionTransformer`). -/
def transformerEdgeNames (g : DistributionGraph) : List String :=
  g.edges.filterMap fun e =>
    if e.data.edge_type = .distributionTransformer then some e.data.name
    else none

end DistributionGraph

/-- `TransformerPhaseMapperModel` (data_model.py): name, type, capacity
(converted to VA magnitude) and location of one transformer. -/
structure TransformerPhaseMapperModel where
  tr_name : String
  tr_type : TransformerTypes
  tr_capacity : ℚ
  location : ℚ × ℚ
deriving DecidableEq, Repr

/-- The construction-time check of `BalancedPhaseMapper.__init__`
(balanced_phase_mapper.py:86-94): it computes
`set(mapper names) - set(transformer edge names)` and raises `ValueError`
iff that difference is non-empty.  Returns `true` iff the constructor raises. -/
def balanced_phase_mapper_init_raises (g : DistributionGraph)
    (mapper : List TransformerPhaseMapperModel) : Bool :=
  let missing := (mapper.map TransformerPhaseMapperModel.tr_name).filter
    (fun n => !(g.transformerEdgeNames.contains n))
  !missing.isEmpty

/-! ### Stable sorting and greedy allocation (`balanced_phase_mapper.py`) -/

/-- Stable descending insertion: place `x` before the first element whose key
is strictly smaller, like Python's stable `sorted(..., reverse=True)` places
earlier-listed elements before later ones of equal key. -/
def insertDesc (key : α → ℚ) (x : α) : List α → List α
  | [] => [x]
  | y :: ys => if key y < key x then x :: y :: ys else y :: insertDesc key x ys

/-- Stable sort by key, descending — the semantics of
`sorted(weights, key=lambda x: x[1], reverse=True)`. -/
def sortByDesc (key : α → ℚ) : List α → List α
  | [] => []
  | x :: xs => insertDesc key x (sortByDesc key xs)

/-- Stable ascending insertion: place `x` before the first element whose key
is strictly greater (Python's stable `sorted`). -/
def insertAsc (key : α → ℚ) (x : α) : List α → List α
  | [] => [x]
  | y :: ys => if key x < key y then x :: y :: ys else y :: insertAsc key x ys

/-- Stable sort by key, ascending — the semantics of `sorted(l, key=...)`. -/
def sortByAsc (key : α → ℚ) : List α → List α
  | [] => []
  | x :: xs => insertAsc key x (sortByAsc key xs)

/-- Index of the first minimum of a list (`np.argmin`); `0` on `[]`. -/
def argminIdx : List ℚ → Nat
  | [] => 0
  | x :: xs =>
    match xs with
    | [] => 0
    | _ =>
      let j := argminIdx xs
      if x ≤ xs.getD j 0 then 0 else j + 1

/-- The loop body of `greedy_allocations`: find the category with the
smallest running sum, append the name there and add the weight to that sum. -/
def greedyStep (st : List (List String) × List ℚ) (w : String × ℚ) :
    List (List String) × List ℚ :=
  let i := argminIdx st.2
  (st.1.set i (st.1.getD i [] ++ [w.1]), st.2.set i (st.2.getD i 0 + w.2))

/-- `greedy_allocations` (balanced_phase_mapper.py:49-61): sort the
`(name, weight)` pairs by weight descending, then repeatedly append the next
name to the category with the smallest running weight sum.  Returns the list
of categories together with their final sums (the Python function returns the
categories; the sums are the `sums` local). -/
def greedy_allocations_full (weights : List (String × ℚ)) (num_categories : Nat) :
    List (List String) × List ℚ :=
  (sortByDesc Prod.snd weights).foldl greedyStep
    (List.replicate num_categories [], List.replicate num_categories 0)

/-- The allocations returned by `greedy_allocations`. -/
def greedy_allocations (weights : List (String × ℚ)) (num_categories : Nat) :
    List (List String) :=
  (greedy_allocations_full weights num_categories).1

/-- How many times `s` occurs across all groups of an allocation. -/
def totalCount (groups : List (List String)) (s : String) : Nat :=
  (groups.map fun grp => grp.count s).sum

/-! ### DFS tree (networkx `dfs_tree` rooted at the voltage source) -/

/-- Adjacency of a node, in edge-insertion order (networkx stores adjacency
in insertion order, so `dfs_tree` visits neighbours in this order). -/
def neighborsOf (g : DistributionGraph) (u : String) : List String :=
  g.edges.filterMap fun e =>
    if e.src = u then some e.dst
    else if e.dst = u then some e.src else none

/-- Recursive preorder DFS producing `(visited, (child, parent) pairs)`.
`fuel` bounds the recursion depth; any value above the number of nodes is
sufficient. -/
def dfsFrom (adj : String → List String) :
    Nat → List String → String → List String × List (String × String)
  | 0, visited, _ => (visited, [])
  | fuel + 1, visited, u =>
    (adj u).foldl
      (fun st w =>
        if st.1.contains w then st
        else
          let st2 := dfsFrom adj fuel (w :: st.1) w
          (st2.1, st.2 ++ (w, u) :: st2.2))
      (visited, [])

/-- `DistributionGraph.get_dfs_tree`: the DFS tree rooted at `vsource_node`
as a child→parent edge list, or `none` when `vsource_node` is unset
(`VsourceNodeDoesNotExists` in Python). -/
def dfsTree (g : DistributionGraph) : Option (List (String × String)) :=
  g.vsource_node.map fun r =>
    (dfsFrom (neighborsOf g) (g.nodes.length + 1) [r] r).2

/-- Parent of a node in a child→parent edge list. -/
def parentIn (tree : List (String × String)) (n : String) : Option String :=
  (tree.find? fun p => p.1 = n).map Prod.snd

/-- Root-first parent chain ending at `n` (the unique directed path from the
DFS root to `n`, i.e. `nx.shortest_path(dfs_tree, vsource, n)`). -/
def chainToRoot (par : String → Option String) : Nat → String → List String
  | 0, n => [n]
  | fuel + 1, n =>
    match par n with
    | none => [n]
    | some p => chainToRoot par fuel p ++ [n]

/-- The root-first path from the DFS root to `n`. -/
def pathFromSource (g : DistributionGraph) (par : String → Option String)
    (n : String) : List String :=
  chainToRoot par g.nodes.length n

/-- `nx.ancestors(dfs_tree, n)`: every proper ancestor of `n`, root first. -/
def ancestorsOf (g : DistributionGraph) (par : String → Option String)
    (n : String) : List String :=
  (pathFromSource g par n).dropLast

/-- `nx.descendants(dfs_tree, u)`: every node strictly below `u`, in node
insertion order. -/
def descendantsOf (g : DistributionGraph) (par : String → Option String)
    (u : String) : List String :=
  g.nodeNames.filter fun x => x ≠ u ∧ (ancestorsOf g par x).contains u

/-- `dfs_tree.has_edge(a, b)`: `b`'s parent in the tree is `a`. -/
def treeHasEdge (par : String → Option String) (a b : String) : Bool :=
  par b == some a

/-! ### Transformer voltage mapper (`transformer_voltage_mapper.py`) -/

/-- `TransformerVoltageModel`: transformer name and per-winding voltages
(magnitudes). -/
structure TransformerVoltageModel where
  name : String
  voltages : List ℚ
deriving DecidableEq, Repr

/-- Python `max` over a list of voltages (`0` on `[]`, which Python rejects). -/
def maxList (l : List ℚ) : ℚ := l.foldl max (l.headD 0)

/-- Python `min` over a list of voltages (`0` on `[]`, which Python rejects). -/
def minList (l : List ℚ) : ℚ := l.foldl min (l.headD 0)

/-- `TransformerVoltageMapper._update_mapper_by_func`
(transformer_voltage_mapper.py:48-60): for each listed node, set
`mapper[node] = cmp2 mapper[node] (cmpL xfmr.voltages)` when the node already
has a voltage and `cmpL xfmr.voltages` otherwise.  `cmp2`/`cmpL` are the
binary and list forms of Python's polymorphic `max`/`min` argument. -/
def update_mapper_by_func (nodes : List String) (xfmr : TransformerVoltageModel)
    (mapper : String → Option ℚ) (cmp2 : ℚ → ℚ → ℚ) (cmpL : List ℚ → ℚ) :
    String → Option ℚ :=
  nodes.foldl
    (fun m node =>
      let newV :=
        match m node with
        | some v => cmp2 v (cmpL xfmr.voltages)
        | none => cmpL xfmr.voltages
      fun n => if n = node then some newV else m n)
    mapper

/-- The HT endpoint of a stored edge: `(from, to)` when the DFS tree has the
directed edge `from → to`, else `(to, from)` — the destructuring in
`node_voltage_mapping` (transformer_voltage_mapper.py:72-76). -/
def htOf (par : String → Option String) (e : GEdge) : String :=
  if treeHasEdge par e.src e.dst then e.src else e.dst

/-- The LT endpoint of a stored edge (see `htOf`). -/
def ltOf (par : String → Option String) (e : GEdge) : String :=
  if treeHasEdge par e.src e.dst then e.dst else e.src

/-- One iteration of the loop in
`TransformerVoltageMapper.node_voltage_mapping`
(transformer_voltage_mapper.py:69-86): identify the HT endpoint via
`dfs_tree.has_edge(from, to)`, update all DFS ancestors of the LT endpoint
with `max`, then all DFS descendants of the HT endpoint with `min`. -/
def voltage_step (g : DistributionGraph) (par : String → Option String)
    (m : String → Option ℚ) (p : TransformerVoltageModel × GEdge) :
    String → Option ℚ :=
  let m1 := update_mapper_by_func (ancestorsOf g par (ltOf par p.2)) p.1 m max maxList
  update_mapper_by_func (descendantsOf g par (htOf par p.2)) p.1 m1 min minList

/-- The merge performed by `_update_mapper_by_func` at one node: combine the
existing voltage with `M` by `cmp2`, or take `M` when the node has none. -/
def mergeWith (cmp2 : ℚ → ℚ → ℚ) (M : ℚ) : Option ℚ → ℚ
  | some v => cmp2 v M
  | none => M

/-- `TransformerVoltageMapper.node_voltage_mapping`
(transformer_voltage_mapper.py:62-87): fold `voltage_step` over
`zip(xfmr_voltage, edges)` where `edges` are the graph edges whose name occurs
in the voltage list, in graph edge order (the positional `zip` of the source). -/
def node_voltage_mapping (g : DistributionGraph)
    (xfmr_voltage : List TransformerVoltageModel) : String → Option ℚ :=
  match dfsTree g with
  | none => fun _ => none
  | some tree =>
    let par := parentIn tree
    let names := xfmr_voltage.map TransformerVoltageModel.name
    let edges := g.edges.filter fun e => names.contains e.data.name
    (xfmr_voltage.zip edges).foldl (voltage_step g par) fun _ => none

/-! ### Balanced phase mapper pipeline (`balanced_phase_mapper.py`) -/

/-- Python `dict[str, set[Phase]]`. -/
def PhaseMap : Type := String → Option (Finset Phase)

/-- Dictionary write. -/
def setP (c : PhaseMap) (n : String) (v : Finset Phase) : PhaseMap :=
  fun x => if x = n then some v else c x

/-- `container.get(node)` with `None` read as the empty set, as the upward
sweep does. -/
def getP (c : PhaseMap) (n : String) : Finset Phase := (c n).getD ∅

/-- The full three-phase set `{A, B, C}`. -/
def threePhaseSet : Finset Phase := {Phase.A, Phase.B, Phase.C}

/-- `combinations({A,B,C}, 2)` as sets. -/
def twoPhaseSets : List (Finset Phase) :=
  [{Phase.A, Phase.B}, {Phase.A, Phase.C}, {Phase.B, Phase.C}]

/-- The promotion applied after each union of the upward sweep
(balanced_phase_mapper.py:243-249): a result equal to a two-element subset of
`{A,B,C}` becomes the full `{A,B,C}`. -/
def promote (s : Finset Phase) : Finset Phase :=
  if s ∈ twoPhaseSets then threePhaseSet else s

/-- The stored transformer edge with the given name, via
`graph.get_edges(filter_func=lambda x: x.name in ...)`. -/
def edgeByName (g : DistributionGraph) (name : String) : Option GEdge :=
  g.edges.find? fun e => e.data.name = name

/-- `BalancedPhaseMapper._get_head_node`: the endpoint of the named edge whose
DFS-tree successors contain the other endpoint. -/
def headNodeOf (g : DistributionGraph) (par : String → Option String)
    (trName : String) : String :=
  match edgeByName g trName with
  | none => ""
  | some e => if treeHasEdge par e.src e.dst then e.src else e.dst

/-- The non-head endpoint of the named transformer edge. -/
def tailNodeOf (g : DistributionGraph) (par : String → Option String)
    (trName : String) : String :=
  match edgeByName g trName with
  | none => ""
  | some e => if treeHasEdge par e.src e.dst then e.dst else e.src

/-- `BalancedPhaseMapper._update_three_phase_nodes`: record `{A,B,C}` for each
transformer of the group and assign `{A,B,C}` to every endpoint of its edge. -/
def update_three_phase (g : DistributionGraph)
    (trs : List TransformerPhaseMapperModel) (c tm : PhaseMap) :
    PhaseMap × PhaseMap :=
  let tm := trs.foldl (fun tm tr => setP tm tr.tr_name threePhaseSet) tm
  let nodes := trs.foldl
    (fun acc tr =>
      match edgeByName g tr.tr_name with
      | none => acc
      | some e => acc ++ [e.src, e.dst])
    []
  (nodes.foldl (fun c n => setP c n threePhaseSet) c, tm)

/-- `BalancedPhaseMapper._update_single_phase_tr_nodes` with the `greedy`
policy (balanced_phase_mapper.py:143-192): allocate the group's transformers
over the HT phase tuples by `greedy_allocations`, then give each transformer's
head node its tuple and its tail node the tuple (or `{S1,N,S2}` when the group
is split-phase).  The `kmeans`/`agglomerative` branches call sklearn and are
external collaborators, not modelled here. -/
def update_single_phase (g : DistributionGraph) (par : String → Option String)
    (trs : List TransformerPhaseMapperModel) (ht_phases : List (Finset Phase))
    (is_split : Bool) (c tm : PhaseMap) : PhaseMap × PhaseMap :=
  let allocations := greedy_allocations
    (trs.map fun tr => (tr.tr_name, tr.tr_capacity)) ht_phases.length
  (allocations.zip ht_phases).foldl
    (fun st p =>
      p.1.foldl
        (fun st trName =>
          match edgeByName g trName with
          | none => st
          | some e =>
            let head := if treeHasEdge par e.src e.dst then e.src else e.dst
            let tail := if treeHasEdge par e.src e.dst then e.dst else e.src
            let c := setP st.1 head p.2
            let c := setP c tail
              (if is_split then {Phase.S1, Phase.N, Phase.S2} else p.2)
            (c, setP st.2 trName p.2))
        st)
    (c, tm)

/-- `BalancedPhaseMapper._update_transformer_node_phases`
(balanced_phase_mapper.py:194-218): groups sorted by the enum's string value
(`SINGLE_PHASE < SINGLE_PHASE_PRIMARY_DELTA < SPLIT_PHASE <
SPLIT_PHASE_PRIMARY_DELTA < THREE_PHASE`), each processed with its tuple list
and split-phase flag from `type_to_input_mapper`. -/
def update_transformer_node_phases (g : DistributionGraph)
    (par : String → Option String) (mapper : List TransformerPhaseMapperModel)
    (c tm : PhaseMap) : PhaseMap × PhaseMap :=
  let singleTuples : List (Finset Phase) := [{Phase.A}, {Phase.B}, {Phase.C}]
  let deltaTuples : List (Finset Phase) :=
    [{Phase.A, Phase.B}, {Phase.B, Phase.C}, {Phase.C, Phase.A}]
  let st := update_single_phase g par
    (mapper.filter fun tr => tr.tr_type = .singlePhase) singleTuples false c tm
  let st := update_single_phase g par
    (mapper.filter fun tr => tr.tr_type = .singlePhasePrimaryDelta) deltaTuples
    false st.1 st.2
  let st := update_single_phase g par
    (mapper.filter fun tr => tr.tr_type = .splitPhase) singleTuples true
    st.1 st.2
  let st := update_single_phase g par
    (mapper.filter fun tr => tr.tr_type = .splitPhasePrimaryDelta) deltaTuples
    true st.1 st.2
  update_three_phase g (mapper.filter fun tr => tr.tr_type = .threePhase)
    st.1 st.2

/-- The inner loop of the upward sweep: walk the (already reversed) source
path, at each node storing `promote(current ∪ hp)` where `hp` is the head
phase set captured before the walk. -/
def upward_pass (pathRev : List String) (hp : Finset Phase) (c : PhaseMap) :
    PhaseMap :=
  pathRev.foldl (fun c node => setP c node (promote (getP c node ∪ hp))) c

/-- One transformer's upward sweep: capture the head's current phases, then
walk the reversed source path. -/
def upward_step (headOf : String → String) (pathOf : String → List String)
    (c : PhaseMap) (tr : TransformerPhaseMapperModel) : PhaseMap :=
  upward_pass ((pathOf tr.tr_name).reverse) (getP c (headOf tr.tr_name)) c

/-- `BalancedPhaseMapper._update_node_phases_upward_from_transformer`
(balanced_phase_mapper.py:219-249), parameterised by the head and source-path
queries (the networkx calls). -/
def update_upward (headOf : String → String) (pathOf : String → List String)
    (mapper : List TransformerPhaseMapperModel) (c : PhaseMap) : PhaseMap :=
  mapper.foldl (upward_step headOf pathOf) c

/-- The inner loop of the downward sweep: every listed descendant that has no
phases yet receives `val`. -/
def downward_inner (val : Finset Phase) (ds : List String) (c : PhaseMap) :
    PhaseMap :=
  ds.foldl
    (fun c d =>
      match c d with
      | some _ => c
      | none => setP c d val)
    c

/-- `BalancedPhaseMapper._update_node_phases_downward_from_transformer`
(balanced_phase_mapper.py:251-267): every DFS descendant of the head that has
no phases yet inherits the tail's phases, or `{S1,S2}` when the tail phases
are exactly `{S1,N,S2}`. -/
def update_downward (headOf tailOf : String → String)
    (descOf : String → List String) (mapper : List TransformerPhaseMapperModel)
    (c : PhaseMap) : PhaseMap :=
  mapper.foldl
    (fun c tr =>
      let ltp := getP c (tailOf tr.tr_name)
      let is_split := ltp = ({Phase.S1, Phase.N, Phase.S2} : Finset Phase)
      downward_inner (if is_split then {Phase.S1, Phase.S2} else ltp)
        (descOf (headOf tr.tr_name)) c)
    c

/-- The upward sweep followed by the downward sweep, from a given
post-assignment container. -/
def phase_final (headOf tailOf : String → String)
    (descOf : String → List String) (pathOf : String → List String)
    (mapper : List TransformerPhaseMapperModel) (c0 : PhaseMap) : PhaseMap :=
  update_downward headOf tailOf descOf mapper (update_upward headOf pathOf mapper c0)

/-- `BalancedPhaseMapper.node_phase_mapping` (balanced_phase_mapper.py:269-277)
with the `greedy` allocation policy: transformer-endpoint assignment, then the
upward sweep, then the downward sweep, with head/path/descendant queries taken
from the DFS tree rooted at the voltage source. -/
def node_phase_mapping (g : DistributionGraph)
    (mapper : List TransformerPhaseMapperModel) : PhaseMap :=
  match dfsTree g with
  | none => fun _ => none
  | some tree =>
    let par := parentIn tree
    let headOf := headNodeOf g par
    phase_final headOf (tailNodeOf g par) (descendantsOf g par)
      (fun trName => pathFromSource g par (headOf trName)) mapper
      (update_transformer_node_phases g par mapper
        (fun _ => none) (fun _ => none)).1

/-! ### Asset phase mapping and validation
(`balanced_phase_mapper.py:279-286`, `base_phase_mapper.py:34-41`) -/

/-- `BalancedPhaseMapper.asset_phase_mapping`: for every graph node, map each
of its assets to the node's own entry of `node_phase_mapping`.  `none` models
the `KeyError` raised when an asset-carrying node is missing from
`node_phase_mapping`. -/
def asset_phase_mapping (g : DistributionGraph) (npm : PhaseMap) :
    Option (List (String × List (AKind × Finset Phase))) :=
  g.nodes.mapM fun node =>
    if node.assets.isEmpty then some (node.name, [])
    else (npm node.name).map fun ph =>
      (node.name, node.assets.map fun a => (a, ph))

/-- Failure modes of `BasePhaseMapper._validate_asset_phases`: a missing
dictionary entry (Python `KeyError`) or the `InvalidAssetPhase` exception. -/
inductive ValidateErr where
  | keyError
  | invalidAssetPhase
deriving DecidableEq, Repr

/-- `BasePhaseMapper._validate_asset_phases` (base_phase_mapper.py:34-41):
for every entry of the asset mapping, the union of its asset phase sets must
be a subset of the node's phase set. -/
def validate_asset_phases (npm : PhaseMap) :
    List (String × List (AKind × Finset Phase)) → Except ValidateErr Unit
  | [] => .ok ()
  | (node, amap) :: rest =>
    match npm node with
    | none => .error .keyError
    | some np =>
      if amap.foldl (fun acc p => acc ∪ p.2) ∅ ⊆ np then
        validate_asset_phases npm rest
      else .error .invalidAssetPhase

/-! ### Transformer equipment selection (`edge_equipment_mapper.py:100-131`) -/

/-- One winding of a catalogue transformer: rated power (kVA magnitude),
phase count and rated voltage. -/
structure Winding where
  rated_power : ℚ
  num_phases : Nat
  rated_voltage : ℚ
deriving DecidableEq, Repr

/-- A `DistributionTransformerEquipment` catalogue entry. -/
structure TransformerEquipment where
  name : String
  windings : List Winding
deriving DecidableEq, Repr

/-- `x.windings[0]`, the primary winding. -/
def primaryWinding (x : TransformerEquipment) : Winding :=
  x.windings.headD ⟨0, 0, 0⟩

/-- The `filter_func` of `_get_closest_transformer_equipment`
(edge_equipment_mapper.py:105-120): minimum winding rated power must strictly
exceed the served load; the primary phase count must be 3 when `num_phase = 3`
and `min(num_phase, 1)` when `num_phase < 3`; and zipping the descending-sorted
supplied voltages with the descending-sorted winding voltages (truncated to the
supplied count), each pair must satisfy `0.85·v1 ≤ v2 < 1.15·v1`. -/
def tr_filter_func (capacity : ℚ) (num_phase : Nat) (voltages : List ℚ)
    (x : TransformerEquipment) : Bool :=
  let min_capacity := minList (x.windings.map Winding.rated_power)
  if min_capacity ≤ capacity then false
  else if num_phase = 3 && (primaryWinding x).num_phases ≠ 3 then false
  else if num_phase < 3 && (primaryWinding x).num_phases ≠ min num_phase 1 then
    false
  else
    let wdg_voltages := x.windings.map Winding.rated_voltage
    ((sortByDesc id voltages).zip
        ((sortByDesc id wdg_voltages).take voltages.length)).all
      fun p => !(p.2 < 17 / 20 * p.1 || p.2 ≥ 23 / 20 * p.1)

/-- `_get_closest_transformer_equipment` (edge_equipment_mapper.py:100-131):
filter the catalogue with `tr_filter_func`, raise `EquipmentNotFoundError`
when nothing survives, otherwise return the first entry of the survivors
sorted (ascending, stable) by primary winding rated power. -/
def get_closest_transformer_equipment (catalog : List TransformerEquipment)
    (capacity : ℚ) (num_phase : Nat) (voltages : List ℚ) :
    Except Unit TransformerEquipment :=
  let trs := catalog.filter (tr_filter_func capacity num_phase voltages)
  match trs with
  | [] => .error ()
  | t :: ts =>
    .ok ((sortByAsc (fun x => (primaryWinding x).rated_power) (t :: ts)).headD t)

/-- Modelled from the spec: the candidate predicate claimed in §4.6 — condition
(c) requires for every supplied endpoint voltage `v1` SOME winding voltage in
`[0.85·v1, 1.15·v1)`, and (b) requires the primary phase count to be 3 for
three-phase and 1 otherwise.  Used only to compare the claim against the
implemented filter. -/
def spec_transformer_filter (capacity : ℚ) (num_phase : Nat)
    (voltages : List ℚ) (x : TransformerEquipment) : Bool :=
  (capacity < minList (x.windings.map Winding.rated_power)) &&
  ((primaryWinding x).num_phases = if num_phase = 3 then 3 else 1) &&
  voltages.all fun v1 =>
    x.windings.any fun w =>
      17 / 20 * v1 ≤ w.rated_voltage && w.rated_voltage < 23 / 20 * v1

/-! ### Edge splitting (`utils/split_network_edges.py`)

The geodesic distance (geopy, WGS-84) is an external collaborator; it enters
the model as a distance-function parameter `d` on coordinates.  `uuid.uuid4`
node names are modelled by a fresh-name counter. -/

/-- A raw networkx graph: nodes with `x, y` attributes and undirected edges
(stored in insertion orientation). -/
structure RawGraph where
  nodes : List (String × ℚ × ℚ)
  edges : List (String × String)
deriving DecidableEq, Repr

/-- Coordinates of a named node (`graph_nodes[name]["x"], ...["y"]`). -/
def coordOf (nodes : List (String × ℚ × ℚ)) (n : String) : ℚ × ℚ :=
  ((nodes.find? fun p => p.1 = n).map Prod.snd).getD (0, 0)

/-- Linear interpolation in lon/lat space:
`(x1 + (x2 - x1)·t, y1 + (y2 - y1)·t)`. -/
def lerp (p q : ℚ × ℚ) (t : ℚ) : ℚ × ℚ :=
  (p.1 + (q.1 - p.1) * t, p.2 + (q.2 - p.2) * t)

/-- `np.arange(1, stop, step)`: the values `1 + k·step` strictly below `stop`
(numpy's length formula `⌈(stop - 1)/step⌉`). -/
def arangeFrom1 (stop step : ℚ) : List ℚ :=
  (List.range (⌈(stop - 1) / step⌉).toNat).map fun k : ℕ => 1 + (k : ℚ) * step

/-- The `k`-th fresh node name produced by the model's `uuid4` stand-in. -/
def freshName (k : ℕ) : String := String.mk (List.replicate (k + 1) '#')

/-- Consecutive pairs of a list — the chain edges added between
`sliced_nodes[i]` and `sliced_nodes[i+1]`. -/
def chainEdges (l : List String) : List (String × String) := l.zip l.tail

/-- The body of the edge loop of `split_network_edges`
(split_network_edges.py:65-87) for one original edge: skip edges of length at
most `split_length`; otherwise remove the edge, create interior nodes at the
fractions `arange(1, length, split_length) / length` along the chord, and add
the chain edges.  The state carries the graph under construction and the
fresh-name counter. -/
def splitStep (d : ℚ × ℚ → ℚ × ℚ → ℚ) (splitLength : ℚ)
    (origNodes : List (String × ℚ × ℚ)) (st : RawGraph × ℕ)
    (e : String × String) : RawGraph × ℕ :=
  let cu := coordOf origNodes e.1
  let cv := coordOf origNodes e.2
  let len := d cu cv
  if len ≤ splitLength then st
  else
    let keptEdges := st.1.edges.filter fun e' => e' ≠ e ∧ e' ≠ (e.2, e.1)
    let fracs := (arangeFrom1 len splitLength).map fun x => x / len
    let newNames := (List.range fracs.length).map fun i => freshName (st.2 + i)
    let newNodes := newNames.zip (fracs.map (lerp cu cv))
    let chain := e.1 :: newNames ++ [e.2]
    (⟨st.1.nodes ++ newNodes.map (fun p => (p.1, p.2.1, p.2.2)),
      keptEdges ++ chainEdges chain⟩,
     st.2 + fracs.length)

/-- `split_network_edges(graph, split_length)`
(split_network_edges.py:36-89): start from a deep copy of the input and
process every original edge with `splitStep`. -/
def split_network_edges (d : ℚ × ℚ → ℚ × ℚ → ℚ) (g : RawGraph)
    (splitLength : ℚ) : RawGraph :=
  (g.edges.foldl (splitStep d splitLength g.nodes) (g, 0)).1

/-- Undirected adjacency in a raw graph. -/
def adjR (g : RawGraph) (x y : String) : Prop :=
  (x, y) ∈ g.edges ∨ (y, x) ∈ g.edges

/-- Connectivity (reflexive-transitive closure of adjacency). -/
def connR (g : RawGraph) : String → String → Prop :=
  Relation.ReflTransGen (adjR g)

/-- Node names of a raw graph. -/
def rawNames (g : RawGraph) : List String := g.nodes.map Prod.fst

/-- A distance function is chord-affine when distances along a straight chord
scale linearly with the interpolation parameter — the idealisation under which
the evenly spaced cut points of `split_network_edges` produce evenly long
pieces (spec §4.1: "evenly spaced by `L` along the geodesic chord (linear
interpolation in lon/lat space)"). -/
def ChordAffine (d : ℚ × ℚ → ℚ × ℚ → ℚ) : Prop :=
  ∀ (p q : ℚ × ℚ) (s t : ℚ), 0 ≤ s → s ≤ t → t ≤ 1 →
    d (lerp p q s) (lerp p q t) = (t - s) * d p q

/-- The concrete distance used in counterexamples/witnesses: absolute
difference of the first coordinates (a chord-affine "metres" function). -/
def dAbs1 (p q : ℚ × ℚ) : ℚ := |q.1 - p.1|

/-- Recogniser for the model's fresh uuid-stand-in names: a nonempty all-`#`
string. -/
def isFreshStr (s : String) : Bool := !s.data.isEmpty && s.data.all (· = '#')

/-- Well-formedness of an input graph for the splitting theorems: no node
uses a fresh-format name (uuid4 collisions with existing names are assumed
away), edge endpoints are nodes of the graph, and edges are duplicate-free as
unordered pairs (networkx stores at most one edge per node pair). -/
structure SplitWF (g : RawGraph) : Prop where
  fresh_free : ∀ p ∈ g.nodes, isFreshStr p.1 = false
  ends : ∀ e ∈ g.edges, e.1 ∈ rawNames g ∧ e.2 ∈ rawNames g
  edges_nodup : g.edges.Nodup
  no_reverse : ∀ e ∈ g.edges, (e.2, e.1) ∉ g.edges

/-- An edge whose stored-orientation length is within the corrected bound
`max L 1` (metres). -/
def GoodEdge (d : ℚ × ℚ → ℚ × ℚ → ℚ) (L : ℚ)
    (nodes : List (String × ℚ × ℚ)) (e : String × String) : Prop :=
  d (coordOf nodes e.1) (coordOf nodes e.2) ≤ max L 1

/-- Invariant of the edge-splitting fold: the node list extends the input's
by fresh-named nodes below the counter, edges keep endpoints inside the node
list, the not-yet-processed edges are still present, connectivity over the
original names is preserved, short original edges survive, and every edge is
unprocessed or within the `max L 1` bound. -/
structure SplitInv (d : ℚ × ℚ → ℚ × ℚ → ℚ) (L : ℚ) (g : RawGraph)
    (st : RawGraph × ℕ) (rem : List (String × String)) : Prop where
  nodes_pre : ∃ fr, st.1.nodes = g.nodes ++ fr ∧
    ∀ p ∈ fr, ∃ k < st.2, p.1 = freshName k
  ends : ∀ e ∈ st.1.edges, e.1 ∈ rawNames st.1 ∧ e.2 ∈ rawNames st.1
  rem_present : ∀ e ∈ rem, e ∈ st.1.edges
  conn_eq : ∀ a b, a ∈ rawNames g → b ∈ rawNames g →
    (connR st.1 a b ↔ connR g a b)
  short_kept : ∀ e ∈ g.edges,
    d (coordOf g.nodes e.1) (coordOf g.nodes e.2) ≤ L → e ∈ st.1.edges
  good_or_rem : ∀ e ∈ st.1.edges, e ∈ rem ∨ GoodEdge d L st.1.nodes e

/-! ### System builder winding voltages (`system_builder.py:128-144`) -/

/-- `gdm` `VoltageTypes` as used by `_get_wdg_voltages`. -/
inductive VoltageTypes where
  | lineToGround
  | lineToLine
deriving DecidableEq, Repr

/-- A winding as read by `_get_wdg_voltages`: rated voltage magnitude (kV)
and voltage type. -/
structure BuilderWinding where
  rated_voltage : ℝ
  voltage_type : VoltageTypes

/-- Transformer equipment as read by `_get_wdg_voltages`. -/
structure BuilderTrEquipment where
  windings : List BuilderWinding
  is_center_tapped : Bool

/-- `DistributionSystemBuilder._get_wdg_voltages` (system_builder.py:128-144):
each winding's rated voltage is DIVIDED by `1/√3` when the winding is
line-to-ground, by `1` when line-to-line on a non-center-tapped unit, and by
`2` when line-to-line on a center-tapped unit. -/
noncomputable def get_wdg_voltages (tr : BuilderTrEquipment) : List ℝ :=
  tr.windings.map fun w =>
    w.rated_voltage /
      (if w.voltage_type = .lineToGround then 1 / Real.sqrt 3
       else if !tr.is_center_tapped then 1 else 2)

/-! ### Concrete instances used by counterexamples and witnesses -/

/-- A two-node graph whose voltage source is node `n`. -/
def c1_graph : DistributionGraph :=
  { nodes := [⟨"n", (0, 0), [.vsource]⟩, ⟨"m", (1, 1), []⟩],
    edges := [], vsource_node := some "n" }

/-- A graph holding one transformer edge named `t1`. -/
def c2_graph : DistributionGraph :=
  { nodes := [⟨"u", (0, 0), []⟩, ⟨"w", (1, 0), []⟩],
    edges := [⟨"u", "w", ⟨"t1", .distributionTransformer, none⟩⟩],
    vsource_node := none }

/-- Spec scenario E3: nine single-phase transformers with capacities
`{10, 10, 10, 20, 20, 20, 30, 30, 30}` kVA, as VA magnitudes. -/
def e3_weights : List (String × ℚ) :=
  [("t1", 10000), ("t2", 10000), ("t3", 10000),
   ("t4", 20000), ("t5", 20000), ("t6", 20000),
   ("t7", 30000), ("t8", 30000), ("t9", 30000)]

/-- Chain feeder `v — n — a — b` with transformers `t1 = (a, b)` and
`t2 = (v, n)` and a connecting branch, edges inserted in the order
`t1, t2, branch` (so the voltage mapper's positional zip pairs correctly). -/
def c7_graph : DistributionGraph :=
  { nodes := [⟨"v", (0, 0), [.vsource]⟩, ⟨"n", (1, 0), []⟩,
              ⟨"a", (2, 0), []⟩, ⟨"b", (3, 0), []⟩],
    edges := [⟨"a", "b", ⟨"t1", .distributionTransformer, none⟩⟩,
              ⟨"v", "n", ⟨"t2", .distributionTransformer, none⟩⟩,
              ⟨"n", "a", ⟨"l1", .distributionBranchBase, some 1⟩⟩],
    vsource_node := some "v" }

/-- Winding-voltage configurations for `c7_graph`: the downstream transformer
`t1` steps 10 → 4, the upstream transformer `t2` steps 10 → 2. -/
def c7_cfgs : List TransformerVoltageModel :=
  [⟨"t1", [10, 4]⟩, ⟨"t2", [10, 2]⟩]

/-- The parent map of the DFS tree of `c7_graph`. -/
def c7_par : String → Option String :=
  parentIn ((dfsTree c7_graph).getD [])

/-- Feeder `v — p — q — r — s` where `t_up = (p, q)` is a split-phase
transformer and `t_down = (r, s)` a single-phase primary-delta transformer
below it. -/
def c9_graph : DistributionGraph :=
  { nodes := [⟨"v", (0, 0), [.vsource]⟩, ⟨"p", (1, 0), []⟩,
              ⟨"q", (2, 0), []⟩, ⟨"r", (3, 0), []⟩, ⟨"s", (4, 0), []⟩],
    edges := [⟨"v", "p", ⟨"l1", .distributionBranchBase, some 1⟩⟩,
              ⟨"p", "q", ⟨"t_up", .distributionTransformer, none⟩⟩,
              ⟨"q", "r", ⟨"l2", .distributionBranchBase, some 1⟩⟩,
              ⟨"r", "s", ⟨"t_down", .distributionTransformer, none⟩⟩],
    vsource_node := some "v" }

/-- Phase configurations for `c9_graph`. -/
def c9_mapper : List TransformerPhaseMapperModel :=
  [⟨"t_up", .splitPhase, 25000, (1, 0)⟩,
   ⟨"t_down", .singlePhasePrimaryDelta, 25000, (3, 0)⟩]

/-- The parent map of the DFS tree of `c9_graph`. -/
def c9_par : String → Option String :=
  parentIn ((dfsTree c9_graph).getD [])

/-- A one-entry catalogue: a 50-kVA unit with windings rated
7.2 kV / 7.2 kV / 120 V, all single-phase. -/
def c8_catalog : List TransformerEquipment :=
  [⟨"tr1", [⟨50, 1, 7200⟩, ⟨50, 1, 7200⟩, ⟨50, 1, 120⟩]⟩]

/-- A single edge of `dAbs1`-length 2 between nodes `a` and `b`. -/
def c6_graph : RawGraph :=
  { nodes := [("a", 0, 0), ("b", 2, 0)], edges := [("a", "b")] }

/-- `c1_graph` after removing its voltage-source node `n`. -/
def c1_removed : DistributionGraph :=
  { nodes := [⟨"m", (1, 1), []⟩], edges := [], vsource_node := some "n" }

/-- A one-entry catalogue on which transformer selection succeeds
(capacity 25, single phase, endpoint voltage 100). -/
def c8w_catalog : List TransformerEquipment :=
  [⟨"w1", [⟨50, 1, 100⟩]⟩]

/-- A single edge of `dAbs1`-length 3 between nodes `a` and `b`, used to
witness the amended split theorem at `L = 2`. -/
def c6w_graph : RawGraph :=
  { nodes := [("a", 0, 0), ("b", 3, 0)], edges := [("a", "b")] }

/-- Head query of the one-transformer witness configuration for the phase
sweeps. -/
def c9w_headOf : String → String := fun _ => "h"

/-- Path query of the one-transformer witness configuration. -/
def c9w_pathOf : String → List String := fun _ => ["v", "h"]

/-- Tail query of the one-transformer witness configuration. -/
def c9w_tailOf : String → String := fun _ => "l"

/-- Descendant query of the one-transformer witness configuration. -/
def c9w_descOf : String → List String := fun _ => ["l"]

/-- A single single-phase transformer config for the phase-sweep witness. -/
def c9w_mapper : List TransformerPhaseMapperModel :=
  [⟨"t", .singlePhase, 1, (0, 0)⟩]

/-- A node-phase table defining `{A}` at node `n`, used to witness the asset
phase mapping theorem on `c1_graph`. -/
def c10_npm : PhaseMap :=
  fun s => if s = "n" then some {Phase.A} else none

/-- The asset phase mapping of `c1_graph` under `c10_npm`. -/
def c10_apm : List (String × List (AKind × Finset Phase)) :=
  [("n", [(.vsource, {Phase.A})]), ("m", [])]

/-! ## Theorems -/

/-- C1 counterexample: `c1_graph`'s voltage source is node `n`, yet after
`remove_node("n")` succeeds the `vsource_node` field still reads `some "n"` —
it is not cleared, contradicting the claim. -/
theorem c1_counterexample :
    c1_graph.vsource_node = some "n" ∧
    (DistributionGraph.remove_node c1_graph "n").map
        DistributionGraph.vsource_node = .ok (some "n") := by
  constructor <;> rfl

/-- C1 (amended): whenever `remove_node` succeeds it removes the named node
and its incident edges and leaves `vsource_node` unchanged — also when the
removed node is the voltage source, leaving a stale reference behind. -/
theorem c1_remove_node_amended (g : DistributionGraph) (name : String)
    (g' : DistributionGraph)
    (h : DistributionGraph.remove_node g name = .ok g') :
    g'.vsource_node = g.vsource_node ∧
    g'.nodes = g.nodes.filter (fun n => n.name ≠ name) ∧
    g'.edges = g.edges.filter (fun e => e.src ≠ name ∧ e.dst ≠ name) := by
  unfold DistributionGraph.remove_node at h
  split at h
  · cases h
    exact ⟨rfl, rfl, rfl⟩
  · cases h

/-- C1 witness: the amended theorem applied to `c1_graph` at node `n`. -/
theorem c1_remove_node_amended_witness :
    DistributionGraph.remove_node c1_graph "n" = .ok c1_removed ∧
    (c1_removed.vsource_node = c1_graph.vsource_node ∧
     c1_removed.nodes = c1_graph.nodes.filter (fun n => n.name ≠ "n") ∧
     c1_removed.edges =
       c1_graph.edges.filter (fun e => e.src ≠ "n" ∧ e.dst ≠ "n")) :=
  ⟨rfl, c1_remove_node_amended c1_graph "n" c1_removed rfl⟩

/-- C2 counterexample: `c2_graph` has a transformer edge `t1`, the config
list is empty (so `t1` has no entry), yet the constructor check does not
raise — missing transformer-edge entries are not detected. -/
theorem c2_counterexample :
    "t1" ∈ c2_graph.transformerEdgeNames ∧
    balanced_phase_mapper_init_raises c2_graph [] = false := by
  constructor <;> decide

/-- C2 (amended): the `BalancedPhaseMapper` constructor check raises (a
`ValueError`, not `MissingTransformerMapping`) exactly when some config entry
names a transformer that is not a transformer edge of the graph; a transformer
edge absent from the config list never triggers it. -/
theorem c2_init_check_amended (g : DistributionGraph)
    (mapper : List TransformerPhaseMapperModel) :
    balanced_phase_mapper_init_raises g mapper = true ↔
      ∃ m ∈ mapper, m.tr_name ∉ g.transformerEdgeNames := by
  unfold balanced_phase_mapper_init_raises
  constructor
  · intro h
    have hne : ((mapper.map TransformerPhaseMapperModel.tr_name).filter
        (fun n => !(g.transformerEdgeNames.contains n))) ≠ [] := by
      intro hnil
      rw [hnil] at h
      simp at h
    rcases List.exists_mem_of_ne_nil _ hne with ⟨x, hx⟩
    rw [List.mem_filter] at hx
    rcases List.mem_map.mp hx.1 with ⟨m, hm, rfl⟩
    refine ⟨m, hm, ?_⟩
    have := hx.2
    simp only [Bool.not_eq_true'] at this
    simpa [List.elem_iff] using this
  · rintro ⟨m, hm, hnot⟩
    have hx : m.tr_name ∈ (mapper.map TransformerPhaseMapperModel.tr_name).filter
        (fun n => !(g.transformerEdgeNames.contains n)) := by
      refine List.mem_filter.mpr ⟨List.mem_map_of_mem _ hm, ?_⟩
      simpa [List.elem_iff] using hnot
    have hne := List.ne_nil_of_mem hx
    cases hfil : (mapper.map TransformerPhaseMapperModel.tr_name).filter
        (fun n => !(g.transformerEdgeNames.contains n)) with
    | nil => exact absurd hfil hne
    | cons a l => simp [hfil]

/-- C4 counterexample: an `EdgeModel` whose `edge_type` is the branch subclass
`MatrixImpedanceBranch` and whose length is null passes `validate_fields`,
although its kind is not `Transformer` — the claimed biconditional fails. -/
theorem c4_counterexample :
    validate_fields .matrixImpedanceBranch none = true ∧
    ¬(edgeKindOf .matrixImpedanceBranch = .transformer ↔
        (none : Option ℚ) = none) := by
  constructor <;> decide

/-- C4 (amended): `validate_fields` enforces the kind/length biconditional
only for the exact classes `DistributionTransformer` and
`DistributionBranchBase`; every strict subclass of the branch base type is
accepted with any length, null included. -/
theorem c4_validate_fields_amended (t : PyClass) (len : Option ℚ) :
    (t = .distributionTransformer ∨ t = .distributionBranchBase →
      (validate_fields t len = true ↔
        (edgeKindOf t = .transformer ↔ len = none))) ∧
    (isStrictBranchSubclass t = true → validate_fields t len = true) := by
  cases t <;> cases len <;>
    simp [validate_fields, edgeKindOf, isStrictBranchSubclass]

/-- C4 witness: the amended theorem applied to the exact transformer class
with null length and to `MatrixImpedanceBranch` with a length. -/
theorem c4_validate_fields_amended_witness :
    (validate_fields .distributionTransformer none = true ↔
      (edgeKindOf .distributionTransformer = .transformer ↔
        (none : Option ℚ) = none)) ∧
    validate_fields .matrixImpedanceBranch (some 5) = true :=
  ⟨(c4_validate_fields_amended .distributionTransformer none).1 (Or.inl rfl),
   (c4_validate_fields_amended .matrixImpedanceBranch (some 5)).2 (by decide)⟩

/-- C3 counterexample: for a line-to-ground winding of rated voltage 1 the
builder computes `√3` (it divides by `1/√3`), not the claimed `1/√3`; and for
a line-to-line winding of a center-tapped unit it computes `1/2`, not the
claimed `2`. -/
theorem c3_counterexample :
    get_wdg_voltages ⟨[⟨1, .lineToGround⟩], false⟩ = [Real.sqrt 3] ∧
    Real.sqrt 3 ≠ 1 / Real.sqrt 3 ∧
    get_wdg_voltages ⟨[⟨1, .lineToLine⟩], true⟩ = [1 / 2] ∧
    (1 / 2 : ℝ) ≠ 1 * 2 := by
  have h0 : (0 : ℝ) < Real.sqrt 3 := Real.sqrt_pos.mpr (by norm_num)
  have h3 : Real.sqrt 3 ^ 2 = 3 := Real.sq_sqrt (by norm_num)
  refine ⟨?_, ?_, ?_, by norm_num⟩
  · simp [get_wdg_voltages, one_div_one_div]
  · intro h
    have h' := congrArg (fun x => x * Real.sqrt 3) h
    simp only [one_div, inv_mul_cancel₀ (ne_of_gt h0)] at h'
    nlinarith
  · simp [get_wdg_voltages]

theorem insertDesc_perm (key : α → ℚ) (x : α) (l : List α) :
    (insertDesc key x l).Perm (x :: l) := by
  induction l with
  | nil => exact List.Perm.refl _
  | cons y ys ih =>
    unfold insertDesc
    split
    · exact List.Perm.refl _
    · exact (ih.cons y).trans (List.Perm.swap x y ys)

theorem sortByDesc_perm (key : α → ℚ) (l : List α) :
    (sortByDesc key l).Perm l := by
  induction l with
  | nil => exact List.Perm.refl _
  | cons x xs ih => exact (insertDesc_perm key x _).trans (ih.cons x)

theorem insertAsc_perm (key : α → ℚ) (x : α) (l : List α) :
    (insertAsc key x l).Perm (x :: l) := by
  induction l with
  | nil => exact List.Perm.refl _
  | cons y ys ih =>
    unfold insertAsc
    split
    · exact List.Perm.refl _
    · exact (ih.cons y).trans (List.Perm.swap x y ys)

theorem sortByAsc_perm (key : α → ℚ) (l : List α) :
    (sortByAsc key l).Perm l := by
  induction l with
  | nil => exact List.Perm.refl _
  | cons x xs ih => exact (insertAsc_perm key x _).trans (ih.cons x)

theorem insertAsc_pairwise (key : α → ℚ) (x : α) (l : List α)
    (h : l.Pairwise fun a b => key a ≤ key b) :
    (insertAsc key x l).Pairwise fun a b => key a ≤ key b := by
  induction l with
  | nil => simp [insertAsc]
  | cons y ys ih =>
    rw [List.pairwise_cons] at h
    by_cases hlt : key x < key y
    · rw [insertAsc, if_pos hlt]
      refine List.pairwise_cons.mpr ⟨?_, List.pairwise_cons.mpr h⟩
      intro z hz
      rcases List.mem_cons.mp hz with rfl | hz2
      · exact le_of_lt hlt
      · exact le_trans (le_of_lt hlt) (h.1 z hz2)
    · rw [insertAsc, if_neg hlt]
      refine List.pairwise_cons.mpr ⟨?_, ih h.2⟩
      intro z hz
      have hz' : z ∈ x :: ys := (insertAsc_perm key x ys).mem_iff.mp hz
      rcases List.mem_cons.mp hz' with rfl | hz2
      · exact le_of_not_lt hlt
      · exact h.1 z hz2

theorem sortByAsc_pairwise (key : α → ℚ) (l : List α) :
    (sortByAsc key l).Pairwise fun a b => key a ≤ key b := by
  induction l with
  | nil => simp [sortByAsc]
  | cons x xs ih => exact insertAsc_pairwise key x _ ih

theorem sortByAsc_head_min (key : α → ℚ) (l : List α) (h : α) (t : List α)
    (hsort : sortByAsc key l = h :: t) :
    h ∈ l ∧ ∀ e ∈ l, key h ≤ key e := by
  have hperm := sortByAsc_perm key l
  rw [hsort] at hperm
  constructor
  · exact hperm.mem_iff.mp (List.mem_cons_self h t)
  · intro e he
    rcases List.mem_cons.mp (hperm.mem_iff.mpr he) with rfl | het
    · exact le_refl _
    · have := sortByAsc_pairwise key l
      rw [hsort, List.pairwise_cons] at this
      exact this.1 e het

theorem argminIdx_lt (l : List ℚ) (h : l ≠ []) : argminIdx l < l.length := by
  induction l with
  | nil => exact absurd rfl h
  | cons x xs ih =>
    unfold argminIdx
    cases xs with
    | nil => simp
    | cons y ys =>
      simp only
      split
      · simp
      · have := ih (by simp)
        simpa using Nat.succ_lt_succ this

theorem totalCount_set (gs : List (List String)) (i : Nat) (x s : String)
    (h : i < gs.length) :
    totalCount (gs.set i (gs.getD i [] ++ [x])) s =
      totalCount gs s + (if x = s then 1 else 0) := by
  induction gs generalizing i with
  | nil => simp at h
  | cons g rest ih =>
    cases i with
    | zero =>
      simp only [List.getD_cons_zero, List.set_cons_zero, totalCount,
        List.map_cons, List.sum_cons, List.count_append]
      have hx : [x].count s = if x = s then 1 else 0 := by
        by_cases hxs : x = s
        · simp [hxs]
        · rw [if_neg hxs]
          exact List.count_eq_zero.mpr fun hm =>
            hxs (List.mem_singleton.mp hm).symm
      rw [hx]
      omega
    | succ j =>
      have hj : j < rest.length := by simpa using h
      simp only [List.getD_cons_succ, List.set_cons_succ, totalCount,
        List.map_cons, List.sum_cons]
      have := ih j hj
      simp only [totalCount] at this
      omega

theorem greedy_fold_count (ws : List (String × ℚ)) :
    ∀ (gs : List (List String)) (sums : List ℚ),
      sums.length = gs.length → 0 < gs.length → ∀ s : String,
      totalCount ((ws.foldl greedyStep (gs, sums)).1) s =
        totalCount gs s + (ws.map Prod.fst).count s := by
  induction ws with
  | nil => intro gs sums _ _ s; simp
  | cons w ws ih =>
    intro gs sums hlen hpos s
    have hne : sums ≠ [] := by
      intro hnil
      rw [hnil] at hlen
      simp at hlen
      omega
    have hi : argminIdx sums < gs.length := by
      have := argminIdx_lt sums hne
      omega
    have hstep : (greedyStep (gs, sums) w).1.length = gs.length := by
      simp [greedyStep]
    have hstep2 : (greedyStep (gs, sums) w).2.length = gs.length := by
      simp [greedyStep]
      omega
    rw [List.foldl_cons]
    have := ih (greedyStep (gs, sums) w).1 (greedyStep (gs, sums) w).2
      (by rw [hstep, hstep2]) (by rw [hstep]; exact hpos) s
    rw [show ((greedyStep (gs, sums) w).1, (greedyStep (gs, sums) w).2)
        = greedyStep (gs, sums) w from rfl] at this
    rw [this]
    have hset : totalCount (greedyStep (gs, sums) w).1 s =
        totalCount gs s + (if w.1 = s then 1 else 0) := by
      simpa [greedyStep] using totalCount_set gs (argminIdx sums) w.1 s hi
    rw [hset, List.map_cons]
    have : (w.1 :: ws.map Prod.fst).count s =
        (ws.map Prod.fst).count s + (if w.1 = s then 1 else 0) := by
      rw [List.count_cons]
      by_cases hws : w.1 = s <;> simp [hws]
    omega

/-- C5: `greedy_allocations` places every input name in exactly one of the
`k` categories (occurrence counts are preserved), and on the E3 scenario
(nine transformers of 10/20/30 kVA, three groups) the three aggregate
capacities lie within 10 kVA (10000 VA) of each other. -/
theorem c5_greedy_allocations_balanced :
    (∀ (weights : List (String × ℚ)) (k : Nat), 0 < k → ∀ s : String,
      totalCount (greedy_allocations weights k) s =
        (weights.map Prod.fst).count s) ∧
    (∀ x ∈ (greedy_allocations_full e3_weights 3).2,
      ∀ y ∈ (greedy_allocations_full e3_weights 3).2, |x - y| ≤ 10000) := by
  constructor
  · intro weights k hk s
    unfold greedy_allocations greedy_allocations_full
    rw [greedy_fold_count (sortByDesc Prod.snd weights)
      (List.replicate k []) (List.replicate k 0) (by simp) (by simp [hk]) s]
    have hzero : totalCount (List.replicate k ([] : List String)) s = 0 := by
      induction k with
      | zero => simp [totalCount]
      | succ n ihn => simpa [totalCount, List.replicate_succ] using ihn
    rw [hzero]
    have hperm : ((sortByDesc Prod.snd weights).map Prod.fst).Perm
        (weights.map Prod.fst) := (sortByDesc_perm Prod.snd weights).map _
    simpa using hperm.count_eq s
  · exact of_decide_eq_true (by with_unfolding_all rfl)

/-- C5 witness: the placement part applied to the E3 weights at `k = 3`. -/
theorem c5_greedy_allocations_balanced_witness :
    0 < 3 ∧ totalCount (greedy_allocations e3_weights 3) "t5" =
      (e3_weights.map Prod.fst).count "t5" :=
  ⟨by decide, c5_greedy_allocations_balanced.1 e3_weights 3 (by decide) "t5"⟩

/-- C8 counterexample: a catalogue entry (windings 7.2 kV / 7.2 kV / 120 V)
that satisfies the claim's selection predicate — in particular condition (c),
some winding voltage within `[0.85·v1, 1.15·v1)` for each supplied voltage —
yet `_get_closest_transformer_equipment` raises `EquipmentNotFound`, because
the implementation pairs the sorted voltage lists positionally. -/
theorem c8_counterexample :
    spec_transformer_filter 25 1 [7200, 120]
      ⟨"tr1", [⟨50, 1, 7200⟩, ⟨50, 1, 7200⟩, ⟨50, 1, 120⟩]⟩ = true ∧
    (⟨"tr1", [⟨50, 1, 7200⟩, ⟨50, 1, 7200⟩, ⟨50, 1, 120⟩]⟩ :
      TransformerEquipment) ∈ c8_catalog ∧
    get_closest_transformer_equipment c8_catalog 25 1 [7200, 120] =
      .error () := by
  refine ⟨by with_unfolding_all rfl, by decide, by with_unfolding_all rfl⟩

/-- C8 (amended): selection returns `EquipmentNotFound` exactly when no
catalogue entry passes the implemented filter (minimum winding power strictly
above the load; primary phase count `3` when `num_phase = 3` and
`min(num_phase, 1)` when `num_phase < 3`; and the POSITIONAL pairing of
descending-sorted supplied voltages with descending-sorted winding voltages
within `[0.85·v1, 1.15·v1)`), and otherwise returns a surviving entry of
minimal primary winding rated power. -/
theorem c8_get_closest_transformer_amended (catalog : List TransformerEquipment)
    (capacity : ℚ) (num_phase : Nat) (voltages : List ℚ) :
    (get_closest_transformer_equipment catalog capacity num_phase voltages =
        .error () ↔
      catalog.filter (tr_filter_func capacity num_phase voltages) = []) ∧
    (∀ e, get_closest_transformer_equipment catalog capacity num_phase voltages
        = .ok e →
      e ∈ catalog ∧ tr_filter_func capacity num_phase voltages e = true ∧
      ∀ e' ∈ catalog, tr_filter_func capacity num_phase voltages e' = true →
        (primaryWinding e).rated_power ≤ (primaryWinding e').rated_power) := by
  unfold get_closest_transformer_equipment
  cases hfil : catalog.filter (tr_filter_func capacity num_phase voltages) with
  | nil =>
    refine ⟨by simp, ?_⟩
    intro e he
    simp at he
  | cons t ts =>
    constructor
    · simp
    · intro e he
      simp only at he
      cases hs : sortByAsc (fun x => (primaryWinding x).rated_power) (t :: ts)
        with
      | nil =>
        have := (sortByAsc_perm (fun x => (primaryWinding x).rated_power)
          (t :: ts)).length_eq
        rw [hs] at this
        simp at this
      | cons h' t'' =>
        rw [hs] at he
        simp only [List.headD_cons, Except.ok.injEq] at he
        have hmin := sortByAsc_head_min _ (t :: ts) h' t'' hs
        have hmem : e ∈ catalog.filter
            (tr_filter_func capacity num_phase voltages) := by
          rw [hfil, ← he]; exact hmin.1
        rw [List.mem_filter] at hmem
        refine ⟨hmem.1, hmem.2, ?_⟩
        intro e' he' hfe'
        have ht' : e' ∈ t :: ts := by
          rw [← hfil]
          exact List.mem_filter.mpr ⟨he', hfe'⟩
        rw [← he]
        exact hmin.2 e' ht'

/-- C8 witness: the amended theorem applied to a one-entry catalogue on which
selection succeeds. -/
theorem c8_get_closest_transformer_amended_witness :
    get_closest_transformer_equipment c8w_catalog 25 1 [100] =
      .ok ⟨"w1", [⟨50, 1, 100⟩]⟩ ∧
    ((⟨"w1", [⟨50, 1, 100⟩]⟩ : TransformerEquipment) ∈ c8w_catalog ∧
     tr_filter_func 25 1 [100] ⟨"w1", [⟨50, 1, 100⟩]⟩ = true ∧
     ∀ e' ∈ c8w_catalog, tr_filter_func 25 1 [100] e' = true →
       (primaryWinding ⟨"w1", [⟨50, 1, 100⟩]⟩).rated_power ≤
         (primaryWinding e').rated_power) :=
  ⟨by with_unfolding_all rfl,
   (c8_get_closest_transformer_amended c8w_catalog 25 1 [100]).2
    ⟨"w1", [⟨50, 1, 100⟩]⟩ (by with_unfolding_all rfl)⟩

theorem update_mapper_char (cmp2 : ℚ → ℚ → ℚ) (cmpL : List ℚ → ℚ)
    (hid : ∀ (o : Option ℚ) (M : ℚ),
      cmp2 (mergeWith cmp2 M o) M = mergeWith cmp2 M o) :
    ∀ (nodes : List String) (x : TransformerVoltageModel)
      (m : String → Option ℚ) (n : String),
      update_mapper_by_func nodes x m cmp2 cmpL n =
        if n ∈ nodes then some (mergeWith cmp2 (cmpL x.voltages) (m n))
        else m n := by
  intro nodes
  induction nodes with
  | nil => intro x m n; simp [update_mapper_by_func]
  | cons a rest ih =>
    intro x m n
    have hstep : update_mapper_by_func (a :: rest) x m cmp2 cmpL =
        update_mapper_by_func rest x
          (fun z =>
            if z = a then some (mergeWith cmp2 (cmpL x.voltages) (m a))
            else m z) cmp2 cmpL := rfl
    rw [hstep, ih]
    by_cases hn : n ∈ rest
    · rw [if_pos hn, if_pos (List.mem_cons.mpr (Or.inr hn))]
      by_cases hna : n = a
      · subst hna
        rw [show (if n = n then some (mergeWith cmp2 (cmpL x.voltages) (m n))
              else m n) = some (mergeWith cmp2 (cmpL x.voltages) (m n))
            from if_pos rfl]
        rw [show mergeWith cmp2 (cmpL x.voltages)
              (some (mergeWith cmp2 (cmpL x.voltages) (m n))) =
            cmp2 (mergeWith cmp2 (cmpL x.voltages) (m n)) (cmpL x.voltages)
          from rfl]
        rw [hid]
      · rw [if_neg hna]
    · rw [if_neg hn]
      by_cases hna : n = a
      · subst hna
        rw [if_pos rfl, if_pos (List.mem_cons.mpr (Or.inl rfl))]
      · rw [if_neg hna, if_neg (by simp [hna, hn])]

theorem mergeWith_max_absorb :
    ∀ (o : Option ℚ) (M : ℚ),
      max (mergeWith max M o) M = mergeWith max M o := by
  intro o M
  cases o with
  | none => exact max_self M
  | some v =>
    show max (max v M) M = max v M
    rw [max_assoc, max_self]

theorem mergeWith_min_absorb :
    ∀ (o : Option ℚ) (M : ℚ),
      min (mergeWith min M o) M = mergeWith min M o := by
  intro o M
  cases o with
  | none => exact min_self M
  | some v =>
    show min (min v M) M = min v M
    rw [min_assoc, min_self]

/-- C7 counterexample: in `c7_graph` with configs `c7_cfgs`, transformer `t1`
has configured voltages `[10, 4]` and LT endpoint `b`; node `n` is a DFS
ancestor of `b`, yet the final mapping gives `n` the voltage 2 — neither
`max(V) = 10` nor the greater of an existing voltage and 10, because the later
transformer `t2`'s descendant sweep lowered it. -/
theorem c7_counterexample :
    (⟨"t1", [10, 4]⟩ : TransformerVoltageModel) ∈ c7_cfgs ∧
    edgeByName c7_graph "t1" =
      some ⟨"a", "b", ⟨"t1", .distributionTransformer, none⟩⟩ ∧
    ltOf c7_par ⟨"a", "b", ⟨"t1", .distributionTransformer, none⟩⟩ = "b" ∧
    "n" ∈ ancestorsOf c7_graph c7_par "b" ∧
    maxList [10, 4] = 10 ∧
    node_voltage_mapping c7_graph c7_cfgs "n" = some 2 ∧
    ¬(10 : ℚ) ≤ 2 := by
  decide

/-- C7 (amended): `node_voltage_mapping` folds the per-transformer update
`voltage_step` over the positionally zipped (config, transformer-edge) pairs;
one step gives every DFS ancestor of the LT endpoint `max(V)` when it has no
voltage yet and the greater of its existing voltage and `max(V)` otherwise,
then gives every DFS descendant of the HT endpoint `min(V)` / the lesser of
its value and `min(V)`, leaving all other nodes unchanged.  Later steps may
overwrite the values written by earlier ones. -/
theorem c7_node_voltage_mapping_amended
    (g : DistributionGraph) (par : String → Option String)
    (m : String → Option ℚ) (x : TransformerVoltageModel) (e : GEdge) :
    (∀ n ∈ ancestorsOf g par (ltOf par e),
      n ∉ descendantsOf g par (htOf par e) →
      voltage_step g par m (x, e) n =
        some (mergeWith max (maxList x.voltages) (m n))) ∧
    (∀ n ∈ descendantsOf g par (htOf par e),
      n ∉ ancestorsOf g par (ltOf par e) →
      voltage_step g par m (x, e) n =
        some (mergeWith min (minList x.voltages) (m n))) ∧
    (∀ n ∈ descendantsOf g par (htOf par e),
      n ∈ ancestorsOf g par (ltOf par e) →
      voltage_step g par m (x, e) n =
        some (mergeWith min (minList x.voltages)
          (some (mergeWith max (maxList x.voltages) (m n))))) ∧
    (∀ n, n ∉ ancestorsOf g par (ltOf par e) →
      n ∉ descendantsOf g par (htOf par e) →
      voltage_step g par m (x, e) n = m n) ∧
    (∀ xv : List TransformerVoltageModel, ∀ tree,
      dfsTree g = some tree →
      node_voltage_mapping g xv =
        (xv.zip (g.edges.filter fun ed =>
          (xv.map TransformerVoltageModel.name).contains ed.data.name)).foldl
          (voltage_step g (parentIn tree)) fun _ => none) := by
  have hmaxc := update_mapper_char max maxList mergeWith_max_absorb
  have hminc := update_mapper_char min minList mergeWith_min_absorb
  have hstep : ∀ n, voltage_step g par m (x, e) n =
      update_mapper_by_func (descendantsOf g par (htOf par e)) x
        (update_mapper_by_func (ancestorsOf g par (ltOf par e)) x m max maxList)
        min minList n := fun _ => rfl
  refine ⟨?_, ?_, ?_, ?_, ?_⟩
  · intro n hanc hdesc
    rw [hstep, hminc, if_neg hdesc, hmaxc, if_pos hanc]
  · intro n hdesc hanc
    rw [hstep, hminc, if_pos hdesc, hmaxc, if_neg hanc]
  · intro n hdesc hanc
    rw [hstep, hminc, if_pos hdesc, hmaxc, if_pos hanc]
  · intro n hanc hdesc
    rw [hstep, hminc, if_neg hdesc, hmaxc, if_neg hanc]
  · intro xv tree htree
    unfold node_voltage_mapping
    rw [htree]

/-- C7 witness: the ancestor clause of the amended theorem applied in
`c7_graph` to transformer `t1` at the empty initial mapping and node `n`. -/
theorem c7_node_voltage_mapping_amended_witness :
    "n" ∈ ancestorsOf c7_graph c7_par
      (ltOf c7_par ⟨"a", "b", ⟨"t1", .distributionTransformer, none⟩⟩) ∧
    voltage_step c7_graph c7_par (fun _ => none)
      (⟨"t1", [10, 4]⟩, ⟨"a", "b", ⟨"t1", .distributionTransformer, none⟩⟩)
      "n" = some (mergeWith max (maxList [10, 4]) none) :=
  ⟨by decide,
   (c7_node_voltage_mapping_amended c7_graph c7_par (fun _ => none)
      ⟨"t1", [10, 4]⟩ ⟨"a", "b", ⟨"t1", .distributionTransformer, none⟩⟩).1
    "n" (by decide) (by decide)⟩

theorem foldl_union_subset (np : Finset Phase) :
    ∀ (l : List (AKind × Finset Phase)) (acc : Finset Phase),
      acc ⊆ np → (∀ p ∈ l, p.2 ⊆ np) →
      l.foldl (fun acc p => acc ∪ p.2) acc ⊆ np := by
  intro l
  induction l with
  | nil => intro acc hacc _; simpa using hacc
  | cons p rest ih =>
    intro acc hacc hall
    rw [List.foldl_cons]
    exact ih _ (Finset.union_subset hacc (hall p (List.mem_cons_self p rest)))
      fun q hq => hall q (List.mem_cons.mpr (Or.inr hq))

theorem validate_no_invalid (npm : PhaseMap) :
    ∀ (l : List (String × List (AKind × Finset Phase))),
      (∀ entry ∈ l, ∀ p ∈ entry.2, some p.2 = npm entry.1) →
      validate_asset_phases npm l ≠ .error .invalidAssetPhase := by
  intro l
  induction l with
  | nil => intro _; simp [validate_asset_phases]
  | cons entry rest ih =>
    intro hall
    obtain ⟨node, amap⟩ := entry
    unfold validate_asset_phases
    cases hnp : npm node with
    | none => simp
    | some np =>
      have hsub : amap.foldl (fun acc p => acc ∪ p.2) ∅ ⊆ np := by
        refine foldl_union_subset np amap ∅ (Finset.empty_subset np) ?_
        intro p hp
        have := hall (node, amap) (List.mem_cons_self _ _) p hp
        rw [hnp] at this
        rw [Option.some_inj.mp this]
      show (if amap.foldl (fun acc p => acc ∪ p.2) ∅ ⊆ np then
          validate_asset_phases npm rest
        else Except.error ValidateErr.invalidAssetPhase) ≠
          Except.error ValidateErr.invalidAssetPhase
      rw [if_pos hsub]
      exact ih fun entry' he' => hall entry' (List.mem_cons.mpr (Or.inr he'))

/-- C10: whenever `BalancedPhaseMapper.asset_phase_mapping` is defined, every
asset of every node is mapped to exactly the node's own phase set, and the
construction-time validation can therefore never raise `InvalidAssetPhase`
(its only other outcome besides success is a missing-key error). -/
theorem c10_asset_phase_mapping_exact (g : DistributionGraph) (npm : PhaseMap)
    (apm : List (String × List (AKind × Finset Phase)))
    (h : asset_phase_mapping g npm = some apm) :
    (∀ entry ∈ apm, ∀ p ∈ entry.2, some p.2 = npm entry.1) ∧
    validate_asset_phases npm apm ≠ .error .invalidAssetPhase := by
  have hentries : ∀ entry ∈ apm, ∀ p ∈ entry.2, some p.2 = npm entry.1 := by
    unfold asset_phase_mapping at h
    revert apm
    induction g.nodes with
    | nil =>
      intro apm h
      simp only [List.mapM_nil, Option.pure_def, Option.some_inj] at h
      subst h
      intro entry he
      simp at he
    | cons nd nds ih =>
      intro apm h
      rw [List.mapM_cons] at h
      simp only [Option.pure_def, Option.bind_eq_bind, Option.bind_eq_some]
        at h
      obtain ⟨b, hb, bs, hbs, heq⟩ := h
      obtain rfl : b :: bs = apm := Option.some_inj.mp heq
      intro entry he
      rcases List.mem_cons.mp he with rfl | he2
      · by_cases hassets : nd.assets.isEmpty
        · rw [if_pos hassets] at hb
          cases hb
          intro p hp
          simp at hp
        · rw [if_neg hassets] at hb
          rcases Option.map_eq_some'.mp hb with ⟨ph, hph, hbdef⟩
          subst hbdef
          intro p hp
          rcases List.mem_map.mp hp with ⟨a, _, rfl⟩
          simpa using hph.symm
      · exact ih bs (by simpa using hbs) entry he2
  exact ⟨hentries, validate_no_invalid npm apm hentries⟩

/-- C10 witness: the theorem applied to `c1_graph` with the node-phase table
`c10_npm`, whose asset phase mapping is `c10_apm`. -/
theorem c10_asset_phase_mapping_exact_witness :
    asset_phase_mapping c1_graph c10_npm = some c10_apm ∧
    ((∀ entry ∈ c10_apm, ∀ p ∈ entry.2, some p.2 = c10_npm entry.1) ∧
     validate_asset_phases c10_npm c10_apm ≠ .error .invalidAssetPhase) :=
  ⟨by decide, c10_asset_phase_mapping_exact c1_graph c10_npm c10_apm
    (by decide)⟩

theorem promote_ext : ∀ s : Finset Phase, s ⊆ promote s := by decide

set_option maxRecDepth 8000 in
theorem promote_mono_abc :
    ∀ X Y : Finset Phase, X ⊆ Y → Y ⊆ threePhaseSet →
      promote X ⊆ promote Y := by decide

theorem upward_pass_char (pathRev : List String) (hp : Finset Phase)
    (hnd : pathRev.Nodup) :
    ∀ (c : PhaseMap) (n : String),
      upward_pass pathRev hp c n =
        if n ∈ pathRev then some (promote (getP c n ∪ hp)) else c n := by
  induction pathRev with
  | nil => intro c n; simp [upward_pass]
  | cons b rest ih =>
    intro c n
    rw [List.nodup_cons] at hnd
    have hstep : upward_pass (b :: rest) hp c =
        upward_pass rest hp (setP c b (promote (getP c b ∪ hp))) := rfl
    rw [hstep, ih hnd.2]
    by_cases hn : n ∈ rest
    · rw [if_pos hn, if_pos (List.mem_cons.mpr (Or.inr hn))]
      have hnb : n ≠ b := fun he => hnd.1 (he ▸ hn)
      rw [show getP (setP c b (promote (getP c b ∪ hp))) n = getP c n by
        simp [getP, setP, if_neg hnb]]
    · rw [if_neg hn]
      by_cases hnb : n = b
      · subst hnb
        rw [if_pos (List.mem_cons.mpr (Or.inl rfl))]
        simp [setP]
      · rw [if_neg (by simp [hnb, hn]), show setP c b
          (promote (getP c b ∪ hp)) n = c n by simp [setP, if_neg hnb]]

theorem upward_pass_grow (pathRev : List String) (hp : Finset Phase) :
    ∀ (c : PhaseMap) (n : String),
      getP c n ⊆ getP (upward_pass pathRev hp c) n ∧
      ((c n).isSome → ((upward_pass pathRev hp c) n).isSome) := by
  induction pathRev with
  | nil => intro c n; exact ⟨Finset.Subset.refl _, fun h => h⟩
  | cons b rest ih =>
    intro c n
    have hstep : upward_pass (b :: rest) hp c =
        upward_pass rest hp (setP c b (promote (getP c b ∪ hp))) := rfl
    rw [hstep]
    have h1 : getP c n ⊆ getP (setP c b (promote (getP c b ∪ hp))) n := by
      by_cases hnb : n = b
      · subst hnb
        rw [show getP (setP c n (promote (getP c n ∪ hp))) n =
            promote (getP c n ∪ hp) by simp [getP, setP]]
        exact (Finset.subset_union_left).trans (promote_ext _)
      · rw [show getP (setP c b (promote (getP c b ∪ hp))) n = getP c n by
          simp [getP, setP, if_neg hnb]]
    have h2 : (c n).isSome →
        ((setP c b (promote (getP c b ∪ hp))) n).isSome := by
      intro hs
      by_cases hnb : n = b
      · subst hnb; simp [setP]
      · simpa [setP, if_neg hnb] using hs
    exact ⟨h1.trans (ih _ n).1, fun hs => (ih _ n).2 (h2 hs)⟩

theorem upward_fold_grow (headOf : String → String)
    (pathOf : String → List String) :
    ∀ (l : List TransformerPhaseMapperModel) (c : PhaseMap) (n : String),
      getP c n ⊆ getP (l.foldl (upward_step headOf pathOf) c) n ∧
      ((c n).isSome →
        ((l.foldl (upward_step headOf pathOf) c) n).isSome) := by
  intro l
  induction l with
  | nil => intro c n; exact ⟨Finset.Subset.refl _, fun h => h⟩
  | cons t'' rest ih =>
    intro c n
    rw [List.foldl_cons]
    have hpass := upward_pass_grow ((pathOf t''.tr_name).reverse)
      (getP c (headOf t''.tr_name)) c n
    exact ⟨hpass.1.trans (ih _ n).1, fun hs => (ih _ n).2 (hpass.2 hs)⟩

theorem downward_inner_preserve (val : Finset Phase) :
    ∀ (ds : List String) (c : PhaseMap) (n : String), (c n).isSome →
      downward_inner val ds c n = c n := by
  intro ds
  induction ds with
  | nil => intro c n _; rfl
  | cons d rest ih =>
    intro c n hs
    have hstep : downward_inner val (d :: rest) c =
        downward_inner val rest
          (match c d with
           | some _ => c
           | none => setP c d val) := rfl
    rw [hstep]
    cases hcd : c d with
    | some s =>
      show downward_inner val rest c n = c n
      exact ih c n hs
    | none =>
      show downward_inner val rest (setP c d val) n = c n
      have hdn : n ≠ d := by
        intro he
        rw [he, hcd] at hs
        simp at hs
      have hsp : setP c d val n = c n := by simp [setP, if_neg hdn]
      rw [ih (setP c d val) n (by rw [hsp]; exact hs), hsp]

theorem update_downward_preserve (headOf tailOf : String → String)
    (descOf : String → List String) :
    ∀ (mapper : List TransformerPhaseMapperModel) (c : PhaseMap) (n : String),
      (c n).isSome →
      update_downward headOf tailOf descOf mapper c n = c n := by
  intro mapper
  induction mapper with
  | nil => intro c n _; rfl
  | cons t'' rest ih =>
    intro c n hs
    have hstep : update_downward headOf tailOf descOf (t'' :: rest) c =
        update_downward headOf tailOf descOf rest
          (downward_inner
            (if getP c (tailOf t''.tr_name) =
                ({Phase.S1, Phase.N, Phase.S2} : Finset Phase)
             then {Phase.S1, Phase.S2}
             else getP c (tailOf t''.tr_name))
            (descOf (headOf t''.tr_name)) c) := rfl
    rw [hstep]
    have hinner := downward_inner_preserve
      (if getP c (tailOf t''.tr_name) =
          ({Phase.S1, Phase.N, Phase.S2} : Finset Phase)
       then {Phase.S1, Phase.S2}
       else getP c (tailOf t''.tr_name))
      (descOf (headOf t''.tr_name)) c n hs
    rw [ih _ n (by rw [hinner]; exact hs), hinner]

theorem upward_inv_preserve (headOf : String → String)
    (pathOf : String → List String)
    (mapperAll : List TransformerPhaseMapperModel) (h a : String)
    (cU : PhaseMap)
    (habc_hU : getP cU h ⊆ threePhaseSet)
    (habc_aU : getP cU a ⊆ threePhaseSet) :
    ∀ (l : List TransformerPhaseMapperModel) (c : PhaseMap),
      (∀ t' ∈ l, t' ∈ mapperAll) →
      (∀ t' ∈ mapperAll, (pathOf t'.tr_name).Nodup) →
      (∀ t' ∈ mapperAll, h ∈ pathOf t'.tr_name → a ∈ pathOf t'.tr_name) →
      l.foldl (upward_step headOf pathOf) c = cU →
      (getP c h ⊆ getP c a ∧ (c h).isSome ∧ (c a).isSome) →
      getP cU h ⊆ getP cU a ∧ (cU h).isSome ∧ (cU a).isSome := by
  intro l
  induction l with
  | nil =>
    intro c _ _ _ hfold hinv
    rw [List.foldl_nil] at hfold
    rw [← hfold]
    exact hinv
  | cons t'' rest ih =>
    intro c hscope hnodup hcoh hfold hinv
    rw [List.foldl_cons] at hfold
    have ht''  : t'' ∈ mapperAll := hscope t'' (List.mem_cons_self _ _)
    have hnd'' : ((pathOf t''.tr_name).reverse).Nodup :=
      List.nodup_reverse.mpr (hnodup t'' ht'')
    have hchar := upward_pass_char ((pathOf t''.tr_name).reverse)
      (getP c (headOf t''.tr_name)) hnd'' c
    have hstep : upward_step headOf pathOf c t'' =
        upward_pass ((pathOf t''.tr_name).reverse)
          (getP c (headOf t''.tr_name)) c := rfl
    refine ih (upward_step headOf pathOf c t'')
      (fun t3 h3 => hscope t3 (List.mem_cons.mpr (Or.inr h3))) hnodup hcoh
      hfold ?_
    by_cases hh : h ∈ pathOf t''.tr_name
    · have ha'' : a ∈ pathOf t''.tr_name := hcoh t'' ht'' hh
      have hch : upward_step headOf pathOf c t'' h =
          some (promote (getP c h ∪ getP c (headOf t''.tr_name))) := by
        rw [hstep, hchar h, if_pos (List.mem_reverse.mpr hh)]
      have hca : upward_step headOf pathOf c t'' a =
          some (promote (getP c a ∪ getP c (headOf t''.tr_name))) := by
        rw [hstep, hchar a, if_pos (List.mem_reverse.mpr ha'')]
      have hga : getP (upward_step headOf pathOf c t'') a =
          promote (getP c a ∪ getP c (headOf t''.tr_name)) := by
        simp [getP, hca]
      have hbound : getP c a ∪ getP c (headOf t''.tr_name) ⊆ threePhaseSet := by
        refine Finset.Subset.trans ?_ habc_aU
        refine Finset.Subset.trans (promote_ext _) ?_
        rw [← hga, ← hfold]
        exact (upward_fold_grow headOf pathOf rest _ a).1
      refine ⟨?_, by simp [hch], by simp [hca]⟩
      rw [show getP (upward_step headOf pathOf c t'') h =
          promote (getP c h ∪ getP c (headOf t''.tr_name)) by simp [getP, hch],
        hga]
      exact promote_mono_abc _ _
        (Finset.union_subset_union_left hinv.1) hbound
    · have hch : upward_step headOf pathOf c t'' h = c h := by
        rw [hstep, hchar h, if_neg (fun hmem => hh (List.mem_reverse.mp hmem))]
      have hgrow := upward_pass_grow ((pathOf t''.tr_name).reverse)
        (getP c (headOf t''.tr_name)) c a
      refine ⟨?_, ?_, ?_⟩
      · rw [show getP (upward_step headOf pathOf c t'') h = getP c h by
          simp [getP, hch]]
        exact hinv.1.trans (by rw [hstep]; exact hgrow.1)
      · rw [hch]; exact hinv.2.1
      · rw [hstep]; exact hgrow.2 hinv.2.2

/-- C9 counterexample: in `c9_graph` the split-phase transformer `t_up`'s
tail `q` lies on the DFS path from the source to `t_down`'s head `r`; after
phase mapping `r` holds `{A,B,C}` (promoted) while `q` holds
`{A,B,S1,N,S2}`, which is not a superset — the claimed invariant fails. -/
theorem c9_counterexample :
    (⟨"t_down", .singlePhasePrimaryDelta, 25000, (3, 0)⟩ :
      TransformerPhaseMapperModel) ∈ c9_mapper ∧
    headNodeOf c9_graph c9_par "t_down" = "r" ∧
    "q" ∈ pathFromSource c9_graph c9_par "r" ∧
    node_phase_mapping c9_graph c9_mapper "r" = some threePhaseSet ∧
    Phase.N ∈ getP (node_phase_mapping c9_graph c9_mapper) "q" ∧
    Phase.C ∉ getP (node_phase_mapping c9_graph c9_mapper) "q" ∧
    ¬ (getP (node_phase_mapping c9_graph c9_mapper) "r" ⊆
       getP (node_phase_mapping c9_graph c9_mapper) "q") := by
  decide

/-- C9 (amended): after the upward and downward sweeps (`phase_final`), for
every transformer `t` of the mapper and every node `a` on the source path of
`t`'s head, the final phase set of the head is a subset of the final phase set
of `a` — provided the source paths are duplicate-free and downward-closed
(`head ∈ path t' → a ∈ path t'`, the defining property of tree paths) and
both final phase sets stay within `{A,B,C}` (ruling out split-phase symbols
injected on the path, which the counterexample shows break the claim). -/
theorem c9_phase_superset_amended (headOf tailOf : String → String)
    (descOf pathOf : String → List String)
    (mapper : List TransformerPhaseMapperModel) (c0 : PhaseMap)
    (t : TransformerPhaseMapperModel) (a : String)
    (ht : t ∈ mapper) (ha : a ∈ pathOf t.tr_name)
    (hhead : headOf t.tr_name ∈ pathOf t.tr_name)
    (hnodup : ∀ t' ∈ mapper, (pathOf t'.tr_name).Nodup)
    (hcoh : ∀ t' ∈ mapper, headOf t.tr_name ∈ pathOf t'.tr_name →
      a ∈ pathOf t'.tr_name)
    (habc_h : getP (phase_final headOf tailOf descOf pathOf mapper c0)
      (headOf t.tr_name) ⊆ threePhaseSet)
    (habc_a : getP (phase_final headOf tailOf descOf pathOf mapper c0) a
      ⊆ threePhaseSet) :
    getP (phase_final headOf tailOf descOf pathOf mapper c0)
        (headOf t.tr_name) ⊆
      getP (phase_final headOf tailOf descOf pathOf mapper c0) a := by
  obtain ⟨l1, l2, rfl⟩ := List.append_of_mem ht
  set hnode := headOf t.tr_name with hhdef
  set cU := update_upward headOf pathOf (l1 ++ t :: l2) c0 with hcUdef
  set c1 := l1.foldl (upward_step headOf pathOf) c0 with hc1def
  set c2 := upward_step headOf pathOf c1 t with hc2def
  have hcU2 : cU = l2.foldl (upward_step headOf pathOf) c2 := by
    rw [hcUdef, hc2def, hc1def]
    show (l1 ++ t :: l2).foldl (upward_step headOf pathOf) c0 = _
    rw [List.foldl_append, List.foldl_cons]
  have hnd : ((pathOf t.tr_name).reverse).Nodup :=
    List.nodup_reverse.mpr (hnodup t ht)
  have hchar := upward_pass_char ((pathOf t.tr_name).reverse)
    (getP c1 (headOf t.tr_name)) hnd c1
  have hstep : c2 = upward_pass ((pathOf t.tr_name).reverse)
      (getP c1 (headOf t.tr_name)) c1 := rfl
  have hc2h : c2 hnode =
      some (promote (getP c1 (headOf t.tr_name))) := by
    rw [hstep, hchar hnode, if_pos (List.mem_reverse.mpr hhead)]
    rw [hhdef, Finset.union_self]
  have hc2a : c2 a =
      some (promote (getP c1 a ∪ getP c1 (headOf t.tr_name))) := by
    rw [hstep, hchar a, if_pos (List.mem_reverse.mpr ha)]
  have hsome2h : (c2 hnode).isSome := by simp [hc2h]
  have hsome2a : (c2 a).isSome := by simp [hc2a]
  have hsomeUh : (cU hnode).isSome := by
    rw [hcU2]; exact (upward_fold_grow headOf pathOf l2 c2 hnode).2 hsome2h
  have hsomeUa : (cU a).isSome := by
    rw [hcU2]; exact (upward_fold_grow headOf pathOf l2 c2 a).2 hsome2a
  have hfinal : phase_final headOf tailOf descOf pathOf (l1 ++ t :: l2) c0 =
      update_downward headOf tailOf descOf (l1 ++ t :: l2) cU := rfl
  have hfh : phase_final headOf tailOf descOf pathOf (l1 ++ t :: l2) c0 hnode
      = cU hnode := by
    rw [hfinal]
    exact update_downward_preserve headOf tailOf descOf _ cU hnode hsomeUh
  have hfa : phase_final headOf tailOf descOf pathOf (l1 ++ t :: l2) c0 a
      = cU a := by
    rw [hfinal]
    exact update_downward_preserve headOf tailOf descOf _ cU a hsomeUa
  have habc_hU : getP cU hnode ⊆ threePhaseSet := by
    rw [show getP cU hnode =
        getP (phase_final headOf tailOf descOf pathOf (l1 ++ t :: l2) c0)
          hnode by simp [getP, hfh]]
    exact habc_h
  have habc_aU : getP cU a ⊆ threePhaseSet := by
    rw [show getP cU a =
        getP (phase_final headOf tailOf descOf pathOf (l1 ++ t :: l2) c0) a
      by simp [getP, hfa]]
    exact habc_a
  have hinv2 : getP c2 hnode ⊆ getP c2 a ∧ (c2 hnode).isSome ∧
      (c2 a).isSome := by
    refine ⟨?_, hsome2h, hsome2a⟩
    have hga : getP c2 a =
        promote (getP c1 a ∪ getP c1 (headOf t.tr_name)) := by
      simp [getP, hc2a]
    have hbound : getP c1 a ∪ getP c1 (headOf t.tr_name) ⊆ threePhaseSet := by
      refine Finset.Subset.trans ?_ habc_aU
      refine Finset.Subset.trans (promote_ext _) ?_
      rw [← hga, hcU2]
      exact (upward_fold_grow headOf pathOf l2 c2 a).1
    rw [show getP c2 hnode = promote (getP c1 (headOf t.tr_name)) by
      simp [getP, hc2h], hga]
    exact promote_mono_abc _ _ Finset.subset_union_right hbound
  have hinvU := upward_inv_preserve headOf pathOf (l1 ++ t :: l2) hnode a cU
    habc_hU habc_aU l2 c2
    (fun t3 h3 => List.mem_append.mpr (Or.inr (List.mem_cons.mpr (Or.inr h3))))
    hnodup hcoh hcU2.symm hinv2
  rw [show getP (phase_final headOf tailOf descOf pathOf (l1 ++ t :: l2) c0)
      hnode = getP cU hnode by simp [getP, hfh],
    show getP (phase_final headOf tailOf descOf pathOf (l1 ++ t :: l2) c0) a
      = getP cU a by simp [getP, hfa]]
  exact hinvU.1

/-- C9 witness: the amended theorem applied to a one-transformer
configuration whose head is `h` and whose source path is `[v, h]`. -/
theorem c9_phase_superset_amended_witness :
    (⟨"t", .singlePhase, 1, (0, 0)⟩ : TransformerPhaseMapperModel) ∈
      c9w_mapper ∧
    getP (phase_final c9w_headOf c9w_tailOf c9w_descOf c9w_pathOf c9w_mapper
        (fun _ => none)) (c9w_headOf "t") ⊆
      getP (phase_final c9w_headOf c9w_tailOf c9w_descOf c9w_pathOf c9w_mapper
        (fun _ => none)) "v" :=
  ⟨by decide,
   c9_phase_superset_amended c9w_headOf c9w_tailOf c9w_descOf c9w_pathOf
    c9w_mapper (fun _ => none) ⟨"t", .singlePhase, 1, (0, 0)⟩ "v"
    (by decide) (by decide) (by decide) (by decide) (by decide)
    (by decide) (by decide)⟩

/-- C3 (amended): the effective per-winding voltage computed by
`_get_wdg_voltages` is the rated voltage TIMES `√3` for a line-to-ground
winding, the rated voltage for a line-to-line winding of a non-center-tapped
transformer, and the rated voltage DIVIDED by 2 for a line-to-line winding of
a center-tapped transformer. -/
theorem c3_get_wdg_voltages_amended (tr : BuilderTrEquipment) :
    get_wdg_voltages tr = tr.windings.map (fun w =>
      if w.voltage_type = .lineToGround then w.rated_voltage * Real.sqrt 3
      else if tr.is_center_tapped then w.rated_voltage / 2
      else w.rated_voltage) := by
  unfold get_wdg_voltages
  refine List.map_congr_left fun w _ => ?_
  rcases hvt : w.voltage_type <;> rcases hct : tr.is_center_tapped <;>
    simp [hvt, hct, div_div_eq_mul_div]

theorem lerp_zero (p q : ℚ × ℚ) : lerp p q 0 = p := by
  unfold lerp
  obtain ⟨p1, p2⟩ := p
  simp

theorem lerp_one (p q : ℚ × ℚ) : lerp p q 1 = q := by
  unfold lerp
  obtain ⟨q1, q2⟩ := q
  simp

theorem dAbs1_chordAffine : ChordAffine dAbs1 := by
  intro p q s t h0 hst h1
  unfold dAbs1 lerp
  simp only
  rw [show p.1 + (q.1 - p.1) * t - (p.1 + (q.1 - p.1) * s)
      = (t - s) * (q.1 - p.1) by ring]
  rw [abs_mul, abs_of_nonneg (by linarith : (0:ℚ) ≤ t - s)]

theorem isFreshStr_freshName (k : ℕ) : isFreshStr (freshName k) = true := by
  unfold isFreshStr freshName
  simp [List.all_eq_true, List.mem_replicate]

theorem freshName_inj {j k : ℕ} (h : freshName j = freshName k) : j = k := by
  unfold freshName at h
  have := congrArg (fun s => s.data.length) h
  simpa using this

theorem coordOf_append_left (nodes more : List (String × ℚ × ℚ)) (n : String)
    (h : n ∈ nodes.map Prod.fst) :
    coordOf (nodes ++ more) n = coordOf nodes n := by
  unfold coordOf
  rw [List.find?_append]
  rcases List.mem_map.mp h with ⟨p, hp, rfl⟩
  have hsome : (nodes.find? fun q => q.1 = p.1).isSome := by
    rw [List.find?_isSome]
    exact ⟨p, hp, by simp⟩
  cases hfind : nodes.find? fun q => q.1 = p.1 with
  | none => rw [hfind] at hsome; simp at hsome
  | some q => simp [hfind]

theorem coordOf_mem_nodup (nodes : List (String × ℚ × ℚ))
    (p : String × ℚ × ℚ) (hp : p ∈ nodes)
    (huniq : ∀ q ∈ nodes, q.1 = p.1 → q = p) :
    coordOf nodes p.1 = p.2 := by
  unfold coordOf
  induction nodes with
  | nil => simp at hp
  | cons q rest ih =>
    by_cases hq : q.1 = p.1
    · have : q = p := huniq q (List.mem_cons_self q rest) hq
      subst this
      simp
    · rw [List.find?_cons_of_neg _ (by simpa using hq)]
      rcases List.mem_cons.mp hp with rfl | hp2
      · exact absurd rfl hq
      · exact ih hp2 fun r hr => huniq r (List.mem_cons.mpr (Or.inr hr))

theorem adjR_symm_rel (G : RawGraph) : ∀ x y, adjR G x y → adjR G y x := by
  intro x y h
  rcases h with h | h
  · exact Or.inr h
  · exact Or.inl h

theorem connR_symm (G : RawGraph) {a b : String} (h : connR G a b) :
    connR G b a := by
  induction h with
  | refl => exact Relation.ReflTransGen.refl
  | tail _ hstep ih =>
    exact Relation.ReflTransGen.head (adjR_symm_rel G _ _ hstep) ih

theorem connR_lift (G G' : RawGraph) (φ : String → String)
    (h : ∀ x y, adjR G x y → connR G' (φ x) (φ y)) :
    ∀ a b, connR G a b → connR G' (φ a) (φ b) := by
  intro a b hconn
  induction hconn with
  | refl => exact Relation.ReflTransGen.refl
  | tail _ hstep ih => exact ih.trans (h _ _ hstep)

theorem connR_of_chainEdges (G : RawGraph) :
    ∀ (l : List String), (∀ e ∈ chainEdges l, e ∈ G.edges) →
      ∀ a, l.head? = some a → ∀ b, l.getLast? = some b → connR G a b := by
  intro l
  induction l with
  | nil => intro _ a ha; simp at ha
  | cons x rest ih =>
    intro hall a ha b hb
    cases rest with
    | nil =>
      simp at ha hb
      subst ha; subst hb
      exact Relation.ReflTransGen.refl
    | cons y rest2 =>
      simp only [List.head?_cons, Option.some_inj] at ha
      rw [← ha]
      have hxy : (x, y) ∈ G.edges := by
        apply hall
        show (x, y) ∈ chainEdges (x :: y :: rest2)
        unfold chainEdges
        simp
      have hrest : ∀ e ∈ chainEdges (y :: rest2), e ∈ G.edges := by
        intro e he
        apply hall
        unfold chainEdges at he ⊢
        simp only [List.zip_cons_cons, List.tail_cons]
        exact List.mem_cons.mpr (Or.inr he)
      have hb2 : (y :: rest2).getLast? = some b := by
        rw [List.getLast?_cons_cons] at hb
        exact hb
      exact Relation.ReflTransGen.head (Or.inl hxy)
        (ih hrest y rfl b hb2)

theorem conn_chain_replace (G G' : RawGraph) (u v : String) (νs : List String)
    (hG'e : G'.edges =
      G.edges.filter (fun e' => e' ≠ (u, v) ∧ e' ≠ (v, u)) ++
        chainEdges (u :: νs ++ [v]))
    (hends : ∀ e ∈ G.edges, e.1 ∈ rawNames G ∧ e.2 ∈ rawNames G)
    (hedge : (u, v) ∈ G.edges)
    (hν : ∀ n ∈ νs, n ∉ rawNames G) :
    ∀ a b, a ∈ rawNames G → b ∈ rawNames G →
      (connR G' a b ↔ connR G a b) := by
  classical
  have hu : u ∈ rawNames G := (hends (u, v) hedge).1
  have hv : v ∈ rawNames G := (hends (u, v) hedge).2
  have huν : u ∉ νs := fun hm => hν u hm hu
  have hvν : v ∉ νs := fun hm => hν v hm hv
  -- the chain connects u and v in G'
  have hchainG' : connR G' u v := by
    refine connR_of_chainEdges G' (u :: νs ++ [v]) ?_ u rfl v ?_
    · intro e he
      rw [hG'e]
      exact List.mem_append.mpr (Or.inr he)
    · rw [show u :: νs ++ [v] = (u :: νs) ++ [v] from rfl]
      exact List.getLast?_concat _
  set φ : String → String := fun x => if x ∈ νs then u else x with hφ
  intro a b hag hbg
  have hφa : φ a = a := if_neg fun hm => hν a hm hag
  have hφb : φ b = b := if_neg fun hm => hν b hm hbg
  constructor
  · -- forward: project chain interiors to u
    intro hconn
    have haux : ∀ x y, (x, y) ∈ G'.edges → connR G (φ x) (φ y) := by
      intro x y hxy
      rw [hG'e] at hxy
      rcases List.mem_append.mp hxy with hf | hc
      · have hmem := List.mem_filter.mp hf
        have hx : x ∈ rawNames G := (hends (x, y) hmem.1).1
        have hy : y ∈ rawNames G := (hends (x, y) hmem.1).2
        rw [show φ x = x from if_neg fun hm => hν x hm hx,
          show φ y = y from if_neg fun hm => hν y hm hy]
        exact Relation.ReflTransGen.single (Or.inl hmem.1)
      · have hmem := List.of_mem_zip hc
        have hxl : x ∈ u :: νs ++ [v] := hmem.1
        have hyl : y ∈ u :: νs ++ [v] := List.mem_of_mem_tail hmem.2
        have hval : ∀ z, z ∈ u :: νs ++ [v] → φ z = u ∨ φ z = v := by
          intro z hz
          rcases List.mem_cons.mp hz with rfl | hz2
          · exact Or.inl (if_neg huν)
          · rcases List.mem_append.mp hz2 with hz3 | hz3
            · exact Or.inl (if_pos hz3)
            · rw [List.mem_singleton.mp hz3]
              exact Or.inr (if_neg hvν)
        have hGuv : connR G u v := Relation.ReflTransGen.single (Or.inl hedge)
        rcases hval x hxl with hx | hx <;> rcases hval y hyl with hy | hy <;>
          rw [hx, hy]
        · exact Relation.ReflTransGen.refl
        · exact hGuv
        · exact connR_symm G hGuv
        · exact Relation.ReflTransGen.refl
    have hadj : ∀ x y, adjR G' x y → connR G (φ x) (φ y) := by
      intro x y hxy
      rcases hxy with hm | hm
      · exact haux x y hm
      · exact connR_symm G (haux y x hm)
    have := connR_lift G' G φ hadj a b hconn
    rwa [hφa, hφb] at this
  · -- backward: reroute (u,v) through the chain
    intro hconn
    have haux2 : ∀ x y, (x, y) ∈ G.edges → connR G' x y := by
      intro x y hxy
      by_cases h1 : (x, y) = (u, v)
      · injection h1 with hx1 hy1
        subst hx1
        subst hy1
        exact hchainG'
      · by_cases h2 : (x, y) = (v, u)
        · injection h2 with hx2 hy2
          rw [hx2, hy2]
          exact connR_symm G' hchainG'
        · refine Relation.ReflTransGen.single (Or.inl ?_)
          rw [hG'e]
          exact List.mem_append.mpr
            (Or.inl (List.mem_filter.mpr ⟨hxy, by simp [h1, h2]⟩))
    have hadj2 : ∀ x y, adjR G x y → connR G' x y := by
      intro x y hxy
      rcases hxy with hm | hm
      · exact haux2 x y hm
      · exact connR_symm G' (haux2 y x hm)
    have := connR_lift G G' id hadj2 a b hconn
    simpa using this

theorem arange_lt (stop step : ℚ) (hstep : 0 < step) (k : ℕ)
    (hk : k < (⌈(stop - 1) / step⌉).toNat) : 1 + k * step < stop := by
  have hkz : (k : ℤ) < (⌈(stop - 1) / step⌉) := Int.lt_toNat.mp hk
  have hkq : (k : ℚ) < (stop - 1) / step := by
    have h1 : ((k : ℤ) : ℚ) ≤ ((⌈(stop - 1) / step⌉) : ℚ) - 1 := by
      have : (k : ℤ) ≤ (⌈(stop - 1) / step⌉) - 1 := by omega
      exact_mod_cast this
    have h2 : ((⌈(stop - 1) / step⌉) : ℚ) - 1 < (stop - 1) / step := by
      have := Int.ceil_lt_add_one ((stop - 1) / step)
      linarith
    calc (k : ℚ) = ((k : ℤ) : ℚ) := by norm_cast
    _ ≤ _ := h1
    _ < _ := h2
  have := (lt_div_iff hstep).mp hkq
  linarith

theorem arangeN_mul_ge (stop step : ℚ) (hstep : 0 < step) :
    stop - 1 ≤ (((⌈(stop - 1) / step⌉).toNat : ℚ)) * step := by
  have hle := Int.le_ceil ((stop - 1) / step)
  rcases le_or_lt 0 ((⌈(stop - 1) / step⌉)) with hc | hc
  · have htn : (((⌈(stop - 1) / step⌉).toNat : ℤ) : ℚ) =
        (((⌈(stop - 1) / step⌉) : ℤ) : ℚ) := by
      exact_mod_cast congrArg (fun z : ℤ => (z : ℚ))
        (Int.toNat_of_nonneg hc)
    have h1 : (stop - 1) / step ≤ (((⌈(stop - 1) / step⌉).toNat : ℚ)) := by
      rw [show (((⌈(stop - 1) / step⌉).toNat : ℚ))
          = (((⌈(stop - 1) / step⌉) : ℤ) : ℚ) by exact_mod_cast htn]
      exact hle
    have := (div_le_iff hstep).mp h1
    linarith
  · have hx : (stop - 1) / step < 0 := by
      have : (stop - 1) / step ≤ ((⌈(stop - 1) / step⌉) : ℚ) := hle
      have hcq : (((⌈(stop - 1) / step⌉) : ℤ) : ℚ) < 0 := by exact_mod_cast hc
      linarith
    have hneg : stop - 1 < 0 := by
      by_contra hpos
      push_neg at hpos
      exact absurd (div_nonneg hpos (le_of_lt hstep)) (not_le.mpr hx)
    have htn0 : ((⌈(stop - 1) / step⌉).toNat : ℚ) = 0 := by
      rw [Int.toNat_of_nonpos (le_of_lt hc)]
      norm_num
    rw [htn0]
    linarith

theorem chainEdges_good (d : ℚ × ℚ → ℚ × ℚ → ℚ) (hca : ChordAffine d)
    (cu cv : ℚ × ℚ) (B : ℚ) (nodes' : List (String × ℚ × ℚ)) :
    ∀ (CP : List (String × ℚ)),
      (∀ p ∈ CP, coordOf nodes' p.1 = lerp cu cv p.2) →
      CP.Chain' (fun p q =>
        0 ≤ p.2 ∧ p.2 ≤ q.2 ∧ q.2 ≤ 1 ∧ (q.2 - p.2) * d cu cv ≤ B) →
      ∀ pq ∈ chainEdges (CP.map Prod.fst),
        d (coordOf nodes' pq.1) (coordOf nodes' pq.2) ≤ B := by
  intro CP
  induction CP with
  | nil => intro _ _ pq hpq; simp [chainEdges] at hpq
  | cons p rest ih =>
    intro hcoord hchain pq hpq
    cases rest with
    | nil => simp [chainEdges] at hpq
    | cons q rest2 =>
      have hstep : chainEdges ((p :: q :: rest2).map Prod.fst) =
          (p.1, q.1) :: chainEdges ((q :: rest2).map Prod.fst) := rfl
      rw [hstep] at hpq
      rw [List.chain'_cons] at hchain
      rcases List.mem_cons.mp hpq with rfl | htail
      · rw [hcoord p (List.mem_cons_self _ _),
          hcoord q (List.mem_cons.mpr (Or.inr (List.mem_cons_self _ _)))]
        rw [hca cu cv p.2 q.2 hchain.1.1 hchain.1.2.1 hchain.1.2.2.1]
        exact hchain.1.2.2.2
      · exact ih (fun r hr => hcoord r (List.mem_cons.mpr (Or.inr hr)))
          hchain.2 pq htail

theorem chain'_positions (L len : ℚ) (hL : 0 < L) (hlen : L < len)
    (u v : String) (ctr : ℕ) :
    ((u, (0 : ℚ)) ::
      ((List.range (⌈(len - 1) / L⌉).toNat).map fun j =>
        (freshName (ctr + j), (1 + j * L) / len)) ++ [(v, (1 : ℚ))]).Chain'
      (fun p q : String × ℚ =>
        0 ≤ p.2 ∧ p.2 ≤ q.2 ∧ q.2 ≤ 1 ∧ (q.2 - p.2) * len ≤ max L 1) := by
  have hlen0 : (0 : ℚ) < len := lt_trans hL hlen
  have hNge := arangeN_mul_ge len L hL
  cases hN : (⌈(len - 1) / L⌉).toNat with
  | zero =>
    have hshort : len ≤ 1 := by
      rw [hN] at hNge
      push_cast at hNge
      linarith
    simp only [List.range_zero, List.map_nil, List.nil_append]
    refine List.chain'_cons.mpr ⟨?_, List.chain'_singleton _⟩
    refine ⟨le_refl 0, by norm_num, le_refl 1, ?_⟩
    simpa using le_trans hshort (le_max_right L 1)
  | succ n =>
    rw [hN] at hNge
    have hmemlt : ∀ k : ℕ, k < n + 1 → 1 + (k : ℚ) * L < len := by
      intro k hk
      exact arange_lt len L hL k (by rw [hN]; exact hk)
    rw [show ((u, (0 : ℚ)) ::
        ((List.range (n + 1)).map fun j =>
          (freshName (ctr + j), (1 + (j : ℚ) * L) / len)) ++ [(v, (1 : ℚ))]) =
      [(u, (0 : ℚ))] ++
        (((List.range (n + 1)).map fun j =>
          (freshName (ctr + j), (1 + (j : ℚ) * L) / len)) ++ [(v, (1 : ℚ))])
      from rfl]
    rw [List.chain'_append]
    refine ⟨List.chain'_singleton _, ?_, ?_⟩
    · rw [List.chain'_append]
      refine ⟨?_, List.chain'_singleton _, ?_⟩
      · rw [List.chain'_map, List.chain'_range_succ]
        intro m hm
        have hm2 : (1 : ℚ) + (m + 1 : ℕ) * L < len := hmemlt (m + 1) (by omega)
        push_cast at hm2
        constructor
        · positivity
        constructor
        · rw [div_le_div_right hlen0]
          push_cast
          nlinarith [hL.le]
        constructor
        · rw [div_le_one hlen0]
          push_cast
          linarith
        · have hdiff : (1 + ((m : ℚ) + 1) * L) / len - (1 + (m : ℚ) * L) / len
              = L / len := by
            field_simp
            ring
          push_cast
          rw [hdiff, div_mul_cancel₀ _ (ne_of_gt hlen0)]
          exact le_max_left L 1
      · intro x hx y hy
        rw [List.range_succ, List.map_append, List.map_cons, List.map_nil,
          List.getLast?_concat] at hx
        simp only [Option.mem_def, Option.some_inj] at hx
        simp only [List.head?_cons, Option.mem_def, Option.some_inj] at hy
        subst hx
        subst hy
        have hlast : (1 : ℚ) + (n : ℚ) * L < len := hmemlt n (by omega)
        refine ⟨by positivity, ?_, le_refl 1, ?_⟩
        · rw [div_le_one hlen0]
          linarith
        · have hdiff : ((1 : ℚ) - (1 + (n : ℚ) * L) / len) * len
              = len - (1 + (n : ℚ) * L) := by
            field_simp
          rw [hdiff]
          refine le_trans ?_ (le_max_left L 1)
          push_cast at hNge
          linarith
    · intro x hx y hy
      simp only [List.getLast?_singleton, Option.mem_def, Option.some_inj]
        at hx
      rw [show List.range (n + 1) = 0 :: (List.range n).map Nat.succ from
        List.range_succ_eq_map n, List.map_cons, List.cons_append,
        List.head?_cons] at hy
      simp only [Option.mem_def, Option.some_inj] at hy
      subst hx
      subst hy
      have h0 : (1 : ℚ) + (0 : ℕ) * L < len := hmemlt 0 (by omega)
      push_cast at h0
      refine ⟨le_refl 0, by positivity, ?_, ?_⟩
      · rw [div_le_one hlen0]
        push_cast
        linarith
      · have hdiff : ((1 + (0 : ℚ) * L) / len - 0) * len = 1 := by
          field_simp
        push_cast
        rw [hdiff]
        exact le_max_right L 1

theorem coordOf_append_right (A B : List (String × ℚ × ℚ)) (n : String)
    (h : ∀ p ∈ A, p.1 ≠ n) : coordOf (A ++ B) n = coordOf B n := by
  unfold coordOf
  rw [List.find?_append]
  have hnone : (A.find? fun p => p.1 = n) = none := by
    rw [List.find?_eq_none]
    intro p hp
    simpa using h p hp
  rw [hnone]
  rfl

theorem chainEdges_mem (l : List String) (pq : String × String)
    (h : pq ∈ chainEdges l) : pq.1 ∈ l ∧ pq.2 ∈ l := by
  obtain ⟨x, y⟩ := pq
  unfold chainEdges at h
  have := List.of_mem_zip h
  exact ⟨this.1, List.mem_of_mem_tail this.2⟩

theorem fresh_not_in (g : RawGraph) (hwf : SplitWF g)
    (nodes fr : List (String × ℚ × ℚ)) (c : ℕ)
    (hE : nodes = g.nodes ++ fr) (hP : ∀ p ∈ fr, ∃ k < c, p.1 = freshName k)
    (m : ℕ) (hm : c ≤ m) : freshName m ∉ nodes.map Prod.fst := by
  rw [hE, List.map_append]
  intro hmem
  rcases List.mem_append.mp hmem with hg | hf
  · rcases List.mem_map.mp hg with ⟨p, hp, hpe⟩
    have hfalse := hwf.fresh_free p hp
    rw [hpe, isFreshStr_freshName] at hfalse
    exact Bool.noConfusion hfalse
  · rcases List.mem_map.mp hf with ⟨p, hp, hpe⟩
    rcases hP p hp with ⟨k, hk, hpk⟩
    rw [hpk] at hpe
    have := freshName_inj hpe
    omega

theorem splitStep_long_eq (d : ℚ × ℚ → ℚ × ℚ → ℚ) (L : ℚ)
    (O : List (String × ℚ × ℚ)) (st : RawGraph × ℕ) (e : String × String)
    (hlen : ¬ d (coordOf O e.1) (coordOf O e.2) ≤ L) :
    splitStep d L O st e =
      (⟨st.1.nodes ++
          (List.range (⌈(d (coordOf O e.1) (coordOf O e.2) - 1) / L⌉).toNat).map
            (fun j => (freshName (st.2 + j),
              lerp (coordOf O e.1) (coordOf O e.2)
                ((1 + (j : ℚ) * L) / d (coordOf O e.1) (coordOf O e.2)))),
        (st.1.edges.filter fun f => f ≠ e ∧ f ≠ (e.2, e.1)) ++
          chainEdges (e.1 ::
            (List.range
              (⌈(d (coordOf O e.1) (coordOf O e.2) - 1) / L⌉).toNat).map
              (fun j => freshName (st.2 + j)) ++ [e.2])⟩,
       st.2 + (⌈(d (coordOf O e.1) (coordOf O e.2) - 1) / L⌉).toNat) := by
  simp only [splitStep, arangeFrom1, List.map_map, List.length_map,
    List.length_range, List.zip_map', if_neg hlen]
  rfl

theorem splitStep_preserves (d : ℚ × ℚ → ℚ × ℚ → ℚ) (L : ℚ) (g : RawGraph)
    (hL : 0 < L) (hwf : SplitWF g) (hca : ChordAffine d)
    (st : RawGraph × ℕ) (e : String × String) (rem2 : List (String × String))
    (hsub : List.Sublist (e :: rem2) g.edges)
    (hinv : SplitInv d L g st (e :: rem2)) :
    SplitInv d L g (splitStep d L g.nodes st e) rem2 := by
  classical
  obtain ⟨fr, hfrE, hfrP⟩ := hinv.nodes_pre
  have he_g : e ∈ g.edges := hsub.subset (List.mem_cons_self _ _)
  have he1g : e.1 ∈ rawNames g := (hwf.ends e he_g).1
  have he2g : e.2 ∈ rawNames g := (hwf.ends e he_g).2
  have he_st : e ∈ st.1.edges := hinv.rem_present e (List.mem_cons_self _ _)
  have hrev_g : (e.2, e.1) ∉ g.edges := hwf.no_reverse e he_g
  have hnodup : (e :: rem2).Nodup := List.Nodup.sublist hsub hwf.edges_nodup
  have he_notin : e ∉ rem2 := (List.nodup_cons.mp hnodup).1
  have hrem2_g : ∀ f ∈ rem2, f ∈ g.edges := fun f hf =>
    hsub.subset (List.mem_cons_of_mem _ hf)
  have hst1names : ∀ n, n ∈ rawNames g → n ∈ rawNames st.1 := by
    intro n hn
    show n ∈ st.1.nodes.map Prod.fst
    rw [hfrE, List.map_append]
    exact List.mem_append.mpr (Or.inl hn)
  have hcoord_st : ∀ n, n ∈ rawNames g →
      coordOf st.1.nodes n = coordOf g.nodes n := by
    intro n hn
    rw [hfrE]
    exact coordOf_append_left g.nodes fr n hn
  by_cases hlen : d (coordOf g.nodes e.1) (coordOf g.nodes e.2) ≤ L
  · have hstep : splitStep d L g.nodes st e = st := by
      simp only [splitStep, if_pos hlen]
    rw [hstep]
    refine ⟨⟨fr, hfrE, hfrP⟩, hinv.ends,
      fun f hf => hinv.rem_present f (List.mem_cons_of_mem _ hf),
      hinv.conn_eq, hinv.short_kept, ?_⟩
    intro f hf
    rcases hinv.good_or_rem f hf with hmem | hgood
    · rcases List.mem_cons.mp hmem with hfe | h2
      · right
        show d (coordOf st.1.nodes f.1) (coordOf st.1.nodes f.2) ≤ max L 1
        rw [hfe, hcoord_st e.1 he1g, hcoord_st e.2 he2g]
        exact le_trans hlen (le_max_left L 1)
      · exact Or.inl h2
    · exact Or.inr hgood
  · have hLlen : L < d (coordOf g.nodes e.1) (coordOf g.nodes e.2) :=
      not_le.mp hlen
    rw [splitStep_long_eq d L g.nodes st e hlen]
    set cu := coordOf g.nodes e.1 with hcu
    set cv := coordOf g.nodes e.2 with hcv
    set len := d cu cv with hlendef
    set N := (⌈(len - 1) / L⌉).toNat with hNdef
    set X := (List.range N).map
      (fun j => (freshName (st.2 + j), lerp cu cv ((1 + (j : ℚ) * L) / len)))
      with hX
    set nams := (List.range N).map (fun j => freshName (st.2 + j)) with hnams
    have hν2 : ∀ n ∈ nams, n ∉ rawNames st.1 := by
      intro n hn
      rw [hnams] at hn
      rcases List.mem_map.mp hn with ⟨j, hj, rfl⟩
      exact fresh_not_in g hwf st.1.nodes fr st.2 hfrE hfrP (st.2 + j)
        (Nat.le_add_right _ _)
    have hnameX : ∀ n : String, n ∈ rawNames st.1 ∨ n ∈ nams →
        n ∈ (st.1.nodes ++ X).map Prod.fst := by
      intro n hn
      rw [List.map_append]
      rcases hn with h | h
      · exact List.mem_append.mpr (Or.inl h)
      · refine List.mem_append.mpr (Or.inr ?_)
        rw [hX, List.map_map]
        rw [hnams] at h
        exact h
    refine ⟨⟨fr ++ X, ?_, ?_⟩, ?_, ?_, ?_, ?_, ?_⟩
    · show st.1.nodes ++ X = g.nodes ++ (fr ++ X)
      rw [hfrE, List.append_assoc]
    · intro p hp
      rcases List.mem_append.mp hp with hpf | hpX
      · rcases hfrP p hpf with ⟨k, hk, hpk⟩
        exact ⟨k, by omega, hpk⟩
      · rw [hX] at hpX
        rcases List.mem_map.mp hpX with ⟨j, hj, rfl⟩
        rw [List.mem_range] at hj
        exact ⟨st.2 + j, by omega, rfl⟩
    · intro f hf
      rcases List.mem_append.mp hf with hk | hc
      · have hmem := List.mem_filter.mp hk
        have hends := hinv.ends f hmem.1
        exact ⟨hnameX f.1 (Or.inl hends.1), hnameX f.2 (Or.inl hends.2)⟩
      · have hcc := chainEdges_mem _ f hc
        have hin : ∀ z ∈ e.1 :: nams ++ [e.2],
            z ∈ rawNames st.1 ∨ z ∈ nams := by
          intro z hz
          rcases List.mem_cons.mp hz with rfl | hz2
          · exact Or.inl (hst1names e.1 he1g)
          · rcases List.mem_append.mp hz2 with h3 | h3
            · exact Or.inr h3
            · rw [List.mem_singleton.mp h3]
              exact Or.inl (hst1names e.2 he2g)
        exact ⟨hnameX f.1 (hin f.1 hcc.1), hnameX f.2 (hin f.2 hcc.2)⟩
    · intro f hf
      have hf_st : f ∈ st.1.edges :=
        hinv.rem_present f (List.mem_cons_of_mem _ hf)
      have hne1 : f ≠ e := fun hfe => he_notin (hfe ▸ hf)
      have hne2 : f ≠ (e.2, e.1) := fun hfe => hrev_g (hfe ▸ hrem2_g f hf)
      refine List.mem_append.mpr (Or.inl ?_)
      rw [List.mem_filter]
      exact ⟨hf_st, by simp [hne1, hne2]⟩
    · intro a b hag hbg
      have hrepl := conn_chain_replace st.1
        ⟨st.1.nodes ++ X,
          (st.1.edges.filter fun f => f ≠ e ∧ f ≠ (e.2, e.1)) ++
            chainEdges (e.1 :: nams ++ [e.2])⟩
        e.1 e.2 nams rfl hinv.ends he_st hν2 a b
        (hst1names a hag) (hst1names b hbg)
      exact hrepl.trans (hinv.conn_eq a b hag hbg)
    · intro f hfg hshort
      have hf_st : f ∈ st.1.edges := hinv.short_kept f hfg hshort
      have hne1 : f ≠ e := by
        intro hfe
        rw [hfe] at hshort
        exact hlen hshort
      have hne2 : f ≠ (e.2, e.1) := fun hfe => hrev_g (hfe ▸ hfg)
      refine List.mem_append.mpr (Or.inl ?_)
      rw [List.mem_filter]
      exact ⟨hf_st, by simp [hne1, hne2]⟩
    · intro f hf
      rcases List.mem_append.mp hf with hk | hc
      · have hmem := List.mem_filter.mp hk
        have hpred2 : f ≠ e ∧ f ≠ (e.2, e.1) := by simpa using hmem.2
        rcases hinv.good_or_rem f hmem.1 with hrem | hgood
        · rcases List.mem_cons.mp hrem with hfe | h2
          · exact absurd hfe hpred2.1
          · exact Or.inl h2
        · right
          show d (coordOf (st.1.nodes ++ X) f.1)
            (coordOf (st.1.nodes ++ X) f.2) ≤ max L 1
          have hends := hinv.ends f hmem.1
          rw [coordOf_append_left st.1.nodes X f.1 hends.1,
            coordOf_append_left st.1.nodes X f.2 hends.2]
          exact hgood
      · right
        have hfreshpred : ∀ j : ℕ, ∀ p ∈ st.1.nodes,
            p.1 ≠ freshName (st.2 + j) := by
          intro j p hp heq
          exact fresh_not_in g hwf st.1.nodes fr st.2 hfrE hfrP (st.2 + j)
            (Nat.le_add_right _ _) (heq ▸ List.mem_map_of_mem Prod.fst hp)
        have hcoordnew : ∀ j ∈ List.range N,
            coordOf (st.1.nodes ++ X) (freshName (st.2 + j)) =
              lerp cu cv ((1 + (j : ℚ) * L) / len) := by
          intro j hj
          rw [coordOf_append_right st.1.nodes X (freshName (st.2 + j))
            (hfreshpred j)]
          have hpmem : (freshName (st.2 + j),
              lerp cu cv ((1 + (j : ℚ) * L) / len)) ∈ X := by
            rw [hX]
            exact List.mem_map.mpr ⟨j, hj, rfl⟩
          have huniq : ∀ q ∈ X, q.1 = freshName (st.2 + j) →
              q = (freshName (st.2 + j),
                lerp cu cv ((1 + (j : ℚ) * L) / len)) := by
            intro q hq hq1
            rw [hX] at hq
            rcases List.mem_map.mp hq with ⟨i, hi, rfl⟩
            have hii : st.2 + i = st.2 + j := freshName_inj hq1
            have hij : i = j := by omega
            rw [hij]
          exact coordOf_mem_nodup X _ hpmem huniq
        have hcoordcond : ∀ p ∈ ((e.1, (0 : ℚ)) :: (List.range N).map
            (fun j => (freshName (st.2 + j), (1 + (j : ℚ) * L) / len)) ++
              [(e.2, (1 : ℚ))]),
            coordOf (st.1.nodes ++ X) p.1 = lerp cu cv p.2 := by
          intro p hp
          rcases List.mem_cons.mp hp with rfl | hp2
          · show coordOf (st.1.nodes ++ X) e.1 = lerp cu cv 0
            rw [lerp_zero, coordOf_append_left st.1.nodes X e.1
              (hst1names e.1 he1g)]
            exact hcoord_st e.1 he1g
          · rcases List.mem_append.mp hp2 with hp3 | hp3
            · rcases List.mem_map.mp hp3 with ⟨j, hj, rfl⟩
              exact hcoordnew j hj
            · obtain rfl := List.mem_singleton.mp hp3
              show coordOf (st.1.nodes ++ X) e.2 = lerp cu cv 1
              rw [lerp_one, coordOf_append_left st.1.nodes X e.2
                (hst1names e.2 he2g)]
              exact hcoord_st e.2 he2g
        have hchaincond := chain'_positions L len hL hLlen e.1 e.2 st.2
        have hmapfst : ((e.1, (0 : ℚ)) :: (List.range N).map
            (fun j => (freshName (st.2 + j), (1 + (j : ℚ) * L) / len)) ++
              [(e.2, (1 : ℚ))]).map Prod.fst = e.1 :: nams ++ [e.2] := by
          simp only [List.map_cons, List.map_append, List.map_map, hnams]
          rfl
        show d (coordOf (st.1.nodes ++ X) f.1)
          (coordOf (st.1.nodes ++ X) f.2) ≤ max L 1
        exact chainEdges_good d hca cu cv (max L 1) (st.1.nodes ++ X)
          ((e.1, (0 : ℚ)) :: (List.range N).map
            (fun j => (freshName (st.2 + j), (1 + (j : ℚ) * L) / len)) ++
              [(e.2, (1 : ℚ))])
          hcoordcond hchaincond f (by rw [hmapfst]; exact hc)

theorem splitInv_init (d : ℚ × ℚ → ℚ × ℚ → ℚ) (L : ℚ) (g : RawGraph)
    (hwf : SplitWF g) : SplitInv d L g (g, 0) g.edges := by
  refine ⟨⟨[], by simp, ?_⟩, hwf.ends, fun f hf => hf, fun a b _ _ => Iff.rfl,
    fun f hf _ => hf, fun f hf => Or.inl hf⟩
  intro p hp
  simp at hp

theorem splitStep_fold (d : ℚ × ℚ → ℚ × ℚ → ℚ) (L : ℚ) (g : RawGraph)
    (hL : 0 < L) (hwf : SplitWF g) (hca : ChordAffine d) :
    ∀ (rem : List (String × String)) (st : RawGraph × ℕ),
      List.Sublist rem g.edges → SplitInv d L g st rem →
      SplitInv d L g (rem.foldl (splitStep d L g.nodes) st) [] := by
  intro rem
  induction rem with
  | nil => intro st _ hinv; exact hinv
  | cons e rem2 ih =>
    intro st hsub hinv
    exact ih (splitStep d L g.nodes st e)
      (List.sublist_of_cons_sublist hsub)
      (splitStep_preserves d L g hL hwf hca st e rem2 hsub hinv)

/-- C6, counterexample: on `c6_graph` (one edge of length 2 between `a` and
`b`) with split length `L = 1/2`, the result of `split_network_edges` contains
the edge from `a` to the first inserted node, and that edge is 1 metre long —
twice `L`, and beyond `L + ε` for the concrete slack `ε = 1/4`: since the cut
points of `np.arange(1, length, L)` start at one metre, pieces of up to
`max(L, 1)` metres survive, refuting the claimed `L + ε` bound for small `L`. -/
theorem c6_counterexample :
    ("a", freshName 0) ∈ (split_network_edges dAbs1 c6_graph (1/2)).edges ∧
    dAbs1 (coordOf (split_network_edges dAbs1 c6_graph (1/2)).nodes "a")
      (coordOf (split_network_edges dAbs1 c6_graph (1/2)).nodes (freshName 0))
      = 1 ∧
    (1 : ℚ)/2 + 1/4 <
      dAbs1 (coordOf (split_network_edges dAbs1 c6_graph (1/2)).nodes "a")
        (coordOf (split_network_edges dAbs1 c6_graph (1/2)).nodes
          (freshName 0)) := by
  have hval : dAbs1 (coordOf (split_network_edges dAbs1 c6_graph (1/2)).nodes "a")
      (coordOf (split_network_edges dAbs1 c6_graph (1/2)).nodes (freshName 0))
      = 1 := by
    with_unfolding_all rfl
  refine ⟨of_decide_eq_true (by with_unfolding_all rfl), hval, ?_⟩
  rw [hval]
  norm_num

/-- C6: `split_network_edges` (split_network_edges.py:36-89) keeps every
original node with its coordinates, preserves connectivity between original
node names, and leaves every edge of length at most `L` intact; but the
correct bound on the produced edges is `max L 1` metres, not `L + ε`: the cut
points of `np.arange(1, length, L)` start one metre from the source endpoint,
so for `L < 1` pieces of up to one metre remain.  Hypotheses: a positive split
length, a well-formed input (no uuid-format names, endpoints in the node
list, duplicate-free undirected edges), and a chord-affine distance, under
which evenly spaced cut fractions give evenly long pieces.  Purity of the
operation is inherent in the functional embedding: the input graph is a value
the fold never mutates. -/
theorem c6_split_network_edges_amended (d : ℚ × ℚ → ℚ × ℚ → ℚ) (g : RawGraph)
    (L : ℚ) (hL : 0 < L) (hwf : SplitWF g) (hca : ChordAffine d) :
    (∀ p ∈ g.nodes, p ∈ (split_network_edges d g L).nodes) ∧
    (∀ a b, a ∈ rawNames g → b ∈ rawNames g →
      (connR (split_network_edges d g L) a b ↔ connR g a b)) ∧
    (∀ e ∈ g.edges, d (coordOf g.nodes e.1) (coordOf g.nodes e.2) ≤ L →
      e ∈ (split_network_edges d g L).edges) ∧
    (∀ e ∈ (split_network_edges d g L).edges,
      GoodEdge d L (split_network_edges d g L).nodes e) := by
  have hfin := splitStep_fold d L g hL hwf hca g.edges (g, 0)
    (List.Sublist.refl _) (splitInv_init d L g hwf)
  refine ⟨?_, ?_, ?_, ?_⟩
  · intro p hp
    obtain ⟨fr, hE, _⟩ := hfin.nodes_pre
    show p ∈ (g.edges.foldl (splitStep d L g.nodes) (g, 0)).1.nodes
    rw [hE]
    exact List.mem_append.mpr (Or.inl hp)
  · intro a b hag hbg
    exact hfin.conn_eq a b hag hbg
  · intro f hf hshort
    exact hfin.short_kept f hf hshort
  · intro f hf
    rcases hfin.good_or_rem f hf with hrem | hgood
    · simp at hrem
    · exact hgood

/-- Witness for C6 on `c6w_graph` (one edge of length 3, split length 2):
every hypothesis holds and the theorem applies. -/
theorem c6_split_network_edges_amended_witness :
    (0 : ℚ) < 2 ∧ SplitWF c6w_graph ∧ ChordAffine dAbs1 ∧
    ((∀ p ∈ c6w_graph.nodes, p ∈ (split_network_edges dAbs1 c6w_graph 2).nodes) ∧
     (∀ a b, a ∈ rawNames c6w_graph → b ∈ rawNames c6w_graph →
       (connR (split_network_edges dAbs1 c6w_graph 2) a b ↔
         connR c6w_graph a b)) ∧
     (∀ e ∈ c6w_graph.edges,
       dAbs1 (coordOf c6w_graph.nodes e.1) (coordOf c6w_graph.nodes e.2) ≤ 2 →
       e ∈ (split_network_edges dAbs1 c6w_graph 2).edges) ∧
     (∀ e ∈ (split_network_edges dAbs1 c6w_graph 2).edges,
       GoodEdge dAbs1 2 (split_network_edges dAbs1 c6w_graph 2).nodes e)) :=
  ⟨by decide, ⟨by decide, by decide, by decide, by decide⟩, dAbs1_chordAffine,
   c6_split_network_edges_amended dAbs1 c6w_graph 2 (by decide)
     ⟨by decide, by decide, by decide, by decide⟩ dAbs1_chordAffine⟩

end Shift
